import Mathlib

/-!
Verification of `cockpit/util/correctNonlinear.py` (classes `Corrector` and
`SubCorrector`).  Images are modelled as functions `Fin P → ℚ` (one rational
per pixel); exact rational arithmetic stands in for IEEE floats, with the
places where float special values (inf/NaN) matter handled explicitly and
documented at the definition concerned.
-/

namespace CorrectNonlinear

/-- Consecutive differences of a list: models `times[1:] - times[:-1]`. -/
def diffs : List ℚ → List ℚ
  | [] => []
  | [_] => []
  | a :: b :: r => (b - a) :: diffs (b :: r)

/-- Insert a value into a sorted list (ascending). -/
def insertSorted (x : ℚ) : List ℚ → List ℚ
  | [] => [x]
  | y :: ys => if x ≤ y then x :: y :: ys else y :: insertSorted x ys

/-- Insertion sort, ascending. -/
def sortQ (l : List ℚ) : List ℚ := l.foldr insertSorted []

/-- Model of `numpy.median`: sort ascending; middle element for odd length,
mean of the two middle elements for even length.  The empty case (where numpy
returns NaN) is mapped to 0; the construction only takes the median of a
nonempty list whenever it has at least two exposure times, and with fewer than
two exposure times the gap test is never executed, so the value chosen for the
empty case is never observable. -/
def npMedian (l : List ℚ) : ℚ :=
  let s := sortQ l
  let n := l.length
  if n = 0 then 0
  else if n % 2 = 1 then s.getD (n / 2) 0
  else (s.getD (n / 2 - 1) 0 + s.getD (n / 2) 0) / 2

/-- Model of `numpy.linspace a b n`: `n` evenly spaced values from `a` to `b`
inclusive (for `n ≥ 2`); `[a]` for `n = 1`, `[]` for `n = 0`. -/
def linspace (a b : ℚ) (n : ℕ) : List ℚ :=
  (List.range n).map (fun k : ℕ =>
    if n ≤ 1 then a else a + (k : ℚ) * (b - a) / ((n : ℚ) - 1))

/-- Model of `numpy.interp x xp fp`, following the reference C implementation
(`arr_interp`): if `x` is greater than the last entry of `xp` the last entry of
`fp` is returned, if `x` is less than the first entry of `xp` the first entry
of `fp` is returned, and otherwise the bracketing interval is located (for
short arrays, by the forward scan the C code uses; for sorted `xp` of any
length the binary search lands on the same interval) and the value is linearly
interpolated there.  numpy does not check that `xp` is ascending; this model
reproduces its deterministic behaviour for unsorted inputs of length at most
four, which covers every unsorted use arising in this file.  `scanIdx x xr`
is the bracketing scan over the tail `xr` of the abscissa list: the number of
leading tail entries that are at most `x`. -/
def scanIdx (x : ℚ) (xr : List ℚ) : ℕ :=
  (xr.takeWhile (fun v => decide (v ≤ x))).length

/-- The interpolation kernel of `numpy.interp`; see `scanIdx` above. -/
def npInterp (x : ℚ) (xp fp : List ℚ) : ℚ :=
  match xp, fp with
  | [], _ => 0
  | _, [] => 0
  | x0 :: xr, f0 :: _ =>
    if xp.getLastD 0 < x then fp.getLastD 0
    else if x < x0 then f0
    else
      if scanIdx x xr + 1 = xp.length then fp.getLastD 0
      else if xp.getD (scanIdx x xr) 0 = x then fp.getD (scanIdx x xr) 0
      else
        fp.getD (scanIdx x xr) 0 + (x - xp.getD (scanIdx x xr) 0) *
            (fp.getD (scanIdx x xr + 1) 0 - fp.getD (scanIdx x xr) 0) /
          (xp.getD (scanIdx x xr + 1) 0 - xp.getD (scanIdx x xr) 0)

/-- Model of `numpy.polyfit xs ys 1` (degree-one least squares), in the exact
closed form `slope = (n·Σxy − Σx·Σy)/d`, `intercept = (Σx²·Σy − Σx·Σxy)/d`
with `d = n·Σx² − (Σx)²`.  When `d = 0` all abscissas coincide (Cauchy–Schwarz
equality); numpy then emits a RankWarning and its column-scaled `lstsq`
returns the minimal-norm solution, which for `n` copies of a common abscissa
`t = Σx/n ≠ 0` is exactly `(ȳ/(2t), ȳ/2) = (Σy/(2Σx), Σy/(2n))`.  When the
common abscissa is 0 (or the lists are empty) the column scaling divides by
zero and numpy raises `LinAlgError`; that subcase is given the guarded value
0, and no claim depends on it. -/
def polyfit1 (xs ys : List ℚ) : ℚ × ℚ :=
  let n : ℚ := xs.length
  let sx := xs.sum
  let sy := ys.sum
  let sxx := (xs.map (fun v => v * v)).sum
  let sxy := ((xs.zip ys).map (fun q => q.1 * q.2)).sum
  let d := n * sxx - sx * sx
  if d = 0 then
    (if sx = 0 then 0 else sy / (2 * sx), if n = 0 then 0 else sy / (2 * n))
  else ((n * sxy - sx * sy) / d, (sxx * sy - sx * sxy) / d)

/-- Order-one (linear) interpolation of a table at a fractional index, as
performed by `scipy.ndimage.interpolation.map_coordinates` with `order = 1`
for an in-range coordinate: with `k = ⌊idx⌋` and `f = idx − k`, the value is
`(1−f)·table[k] + f·table[k+1]` (at `idx` exactly the last index, `f = 0` and
the out-of-range neighbour carries weight 0). -/
def interpAt (table : List ℚ) (idx : ℚ) : ℚ :=
  let k := (Int.floor idx).toNat
  let f := idx - (k : ℚ)
  (1 - f) * table.getD k 0 + f * table.getD (k + 1) 0

/-- Model of `map_coordinates(table, idx, order = 1, cval = -1)` along one
axis of length `n`: a coordinate inside the input extent `[0, n−1]` is
linearly interpolated; a coordinate outside the extent yields `cval = −1`
(mode `constant`: no interpolation is performed beyond the edges of the
input). -/
def mapCoordinates1 (table : List ℚ) (n : ℕ) (idx : ℚ) : ℚ :=
  if 0 ≤ idx ∧ idx ≤ (n : ℚ) - 1 then interpAt table idx else -1

/-- Sequential minimum of a list, as `ndarray.min` computes it (0 for the
empty list, which the source never takes the minimum of). -/
def listMin : List ℚ → ℚ
  | [] => 0
  | a :: r => r.foldl min a

/-- Sequential maximum of a list. -/
def listMax : List ℚ → ℚ
  | [] => 0
  | a :: r => r.foldl max a

/-- The state stored by `SubCorrector.__init__`: the exposure times of the
sub-range, the matching calibration frames, and the supersampling factor. -/
structure SubCorrector (P : ℕ) where
  exposureTimes : List ℚ
  imageData : List (Fin P → ℚ)
  sampleRate : ℕ

namespace SubCorrector

variable {P : ℕ}

/-- The calibration values of one pixel across this sub-range's frames:
`imageData[:, i, j]`. -/
def pixelSeries (S : SubCorrector P) (p : Fin P) : List ℚ :=
  S.imageData.map (fun f => f p)

/-- `self.minVals = self.imageData.min(axis = 0)` at pixel `p`. -/
def minVals (S : SubCorrector P) (p : Fin P) : ℚ := listMin (S.pixelSeries p)

/-- `self.maxVals = self.imageData.max(axis = 0)` at pixel `p`. -/
def maxVals (S : SubCorrector P) (p : Fin P) : ℚ := listMax (S.pixelSeries p)

/-- `self.numSamples = len(self.imageData) * sampleRate`. -/
def numSamples (S : SubCorrector P) : ℕ := S.imageData.length * S.sampleRate

/-- `self.uniformData[:, i, j] = numpy.linspace(min, max, numSamples)`. -/
def uniformData (S : SubCorrector P) (p : Fin P) : List ℚ :=
  linspace (S.minVals p) (S.maxVals p) S.numSamples

/-- `self.uniformExposures[:, i, j] = numpy.interp(uniformData, imageData[:, i, j],
exposureTimes)`: the per-pixel uniformly sampled virtual-exposure table. -/
def uniformExposures (S : SubCorrector P) (p : Fin P) : List ℚ :=
  (S.uniformData p).map (fun u => npInterp u (S.pixelSeries p) S.exposureTimes)

/-- `SubCorrector.correct`: per pixel, the fractional index
`(numSamples − 1) · (value − min) / (max − min)` is looked up in the uniform
virtual-exposure table through `map_coordinates(..., order = 1, cval = -1)`.
When `max = min` the source divides by zero: in IEEE arithmetic the index
becomes `±inf` (or NaN for `value = min`), which in every case lies outside
the input extent `[0, numSamples − 1]`, so `map_coordinates` yields the fill
value `−1`; that branch is therefore written out explicitly here rather than
relying on the rational convention `q / 0 = 0`. -/
def correct (S : SubCorrector P) (input : Fin P → ℚ) : Fin P → ℚ := fun p =>
  let mn := S.minVals p
  let mx := S.maxVals p
  if mx = mn then -1
  else
    mapCoordinates1 (S.uniformExposures p) S.numSamples
      (((S.numSamples : ℚ) - 1) * (input p - mn) / (mx - mn))

end SubCorrector

/-- The all-zero frame, used only as the (never observed) default of list
lookups that the source performs on indices it has just put into range. -/
def zeroFrame (P : ℕ) : Fin P → ℚ := fun _ => 0

/-- The cluster-segmentation loop of `Corrector.__init__`: scan the exposure
indices in order accumulating `curIndices`; when the gap to the previous time
exceeds ten times the median spacing, emit the current cluster and the
two-index bridge `[i−1, i]`, and restart the cluster at `i`; after the scan
the remaining cluster is emitted. -/
def segsFrom (times : List ℚ) (sp : ℚ) : List ℕ → List ℕ → List (List ℕ)
  | cur, [] => [cur]
  | cur, i :: rest =>
    if i = 0 then segsFrom times sp (cur ++ [i]) rest
    else if 10 * sp < times.getD i 0 - times.getD (i - 1) 0 then
      cur :: [i - 1, i] :: segsFrom times sp [i] rest
    else segsFrom times sp (cur ++ [i]) rest

/-- The index lists (clusters interleaved with gap bridges) produced by the
segmentation loop over all indices. -/
def gapSegments (times : List ℚ) (sp : ℚ) : List (List ℕ) :=
  segsFrom times sp [] (List.range times.length)

/-- `SubCorrector(self.exposureTimes[seg], self.imageData[seg], rate)`. -/
def subOf (times : List ℚ) (data : List (Fin P → ℚ)) (seg : List ℕ) (rate : ℕ) :
    SubCorrector P :=
  ⟨seg.map (fun i => times.getD i 0), seg.map (fun i => data.getD i (zeroFrame P)), rate⟩

/-- Mean of a frame, `numpy.mean`. -/
def frameMean {P : ℕ} (f : Fin P → ℚ) : ℚ := (Finset.univ.sum f) / (P : ℚ)

/-- The boundary-extrapolation step of `Corrector.__init__` for one end.
Per pixel, a line of count against exposure time is fitted over the given
(first or last) SubCorrector's own data and evaluated at the target
`∓(2¹⁶ − 1)` to produce the synthetic frame; the synthetic frame is paired
with the time `−intercept/slope` at the low end and `target − intercept/slope`
at the high end (`slope`, `intercept` being the global linear fit), and a
two-frame SubCorrector with supersampling factor 1 is built. -/
def extCorrector (low : Bool) (slope intercept : ℚ) (S : SubCorrector P) :
    SubCorrector P :=
  let target : ℚ := if low then -(2 ^ 16) + 1 else 2 ^ 16 - 1
  let extrapolated : Fin P → ℚ := fun p =>
    let fit := polyfit1 S.exposureTimes (S.pixelSeries p)
    fit.1 * target + fit.2
  if low then
    ⟨[-intercept / slope, S.exposureTimes.headD 0],
      [extrapolated, S.imageData.headD (zeroFrame P)], 1⟩
  else
    ⟨[S.exposureTimes.getLastD 0, target - intercept / slope],
      [S.imageData.getLastD (zeroFrame P), extrapolated], 1⟩

/-- The state stored by `Corrector.__init__`. -/
structure Corrector (P : ℕ) where
  exposureTimes : List ℚ
  imageData : List (Fin P → ℚ)
  slope : ℚ
  intercept : ℚ
  subCorrectors : List (SubCorrector P)

/-- `Corrector.__init__`: fit the global line to (exposure time, frame mean),
segment the data at gaps exceeding ten times the median spacing into primary
clusters and gap bridges (supersampling factor 2), and append the low and high
boundary-extrapolation bridges (supersampling factor 1). -/
def Corrector.build (times : List ℚ) (data : List (Fin P → ℚ)) : Corrector P :=
  let fit := polyfit1 times (data.map frameMean)
  let sp := npMedian (diffs times)
  let primaries := (gapSegments times sp).map (fun seg => subOf times data seg 2)
  let lo := extCorrector true fit.1 fit.2 (primaries.headD ⟨[], [], 1⟩)
  let hi := extCorrector false fit.1 fit.2 (primaries.getLastD ⟨[], [], 1⟩)
  ⟨times, data, fit.1, fit.2, primaries ++ [lo, hi]⟩

/-- What `numpy.asarray` makes of the `y` argument handed to `numpy.polyfit`:
a list or array becomes a 1-dimensional numeric array, while a Python-3 `map`
object (a lazy iterator) is wrapped as a 0-dimensional object array. -/
inductive NpFitArg (P : ℕ)
  | seq (ys : List ℚ)
  | mapIterator (frames : List (Fin P → ℚ))

/-- The number of dimensions `numpy.asarray` assigns to the argument. -/
def npNdim {P : ℕ} : NpFitArg P → ℕ
  | .seq _ => 1
  | .mapIterator _ => 0

/-- The numbers the argument denotes: for an iterator of `numpy.mean` over
the frames, the frame means it would yield if it were materialised (as it is
when a Python-2 `map`, which returns a list, is intended). -/
def npValues {P : ℕ} : NpFitArg P → List ℚ
  | .seq ys => ys
  | .mapIterator frames => frames.map frameMean

/-- The failures `Corrector.__init__` actually raises: `mapData[0].shape`
raises an IndexError on an empty frame list, and `numpy.polyfit` raises a
TypeError when its `y` argument does not arrive as a (1- or 2-dimensional)
numeric array.  No `InsufficientCalibrationDataError` — nor any other
explicit raise — appears anywhere in the source, so no such case exists
here. -/
inductive BuildError
  | indexError
  | typeError
deriving DecidableEq

/-- `numpy.polyfit(xs, y, 1)` including its input validation: the `y`
argument must be at least 1-dimensional after `asarray`; a 0-dimensional
object array (a Python-3 iterator) is rejected with a TypeError before any
fitting happens. -/
def npPolyfitChecked {P : ℕ} (xs : List ℚ) (y : NpFitArg P) :
    Except BuildError (ℚ × ℚ) :=
  if npNdim y < 1 then .error .typeError
  else .ok (polyfit1 xs (npValues y))

/-- `Corrector.__init__` as the fallible operation it is under Python 3:
`mapData[0]` fails with an IndexError when the frame list is empty, and
otherwise the global fit is requested as
`numpy.polyfit(self.exposureTimes, map(numpy.mean, self.imageData), 1)` —
handing polyfit the lazy `map` iterator, which it rejects with a TypeError on
every input, so construction never completes.  `Corrector.build` above models
the data flow this constructor was written (under Python 2, where `map`
returns a list) to perform. -/
def Corrector.tryBuild (times : List ℚ) (data : List (Fin P → ℚ)) :
    Except BuildError (Corrector P) :=
  if data.isEmpty then .error .indexError
  else
    match npPolyfitChecked times (NpFitArg.mapIterator data) with
    | .error e => .error e
    | .ok _ => .ok (Corrector.build times data)

/-- One merge step of `Corrector.correct`:
`result[validIndices] = exposures[validIndices]` — every pixel where the new
SubCorrector produced a non-sentinel value is overwritten, whether or not it
was already mapped. -/
def overwrite {P : ℕ} (r newv : Fin P → ℚ) : Fin P → ℚ := fun p =>
  if newv p = -1 then r p else newv p

/-- The merge loop of `Corrector.correct`: apply each SubCorrector in list
order, overwrite the result wherever it returned a non-sentinel value, and
stop as soon as every pixel is mapped (`numpy.all(result != -1)`). -/
def mergeFrom {P : ℕ} (input : Fin P → ℚ) :
    (Fin P → ℚ) → List (SubCorrector P) → (Fin P → ℚ)
  | r, [] => r
  | r, c :: cs =>
    let r2 := overwrite r (c.correct input)
    if ∀ p, r2 p ≠ -1 then r2 else mergeFrom input r2 cs

/-- The result grid of the merge loop, before fallback and rescaling; the
loop starts from the all-sentinel grid `numpy.ones(shape) * -1`. -/
def Corrector.mergedPre (C : Corrector P) (input : Fin P → ℚ) : Fin P → ℚ :=
  mergeFrom input (fun _ => -1) C.subCorrectors

/-- The result grid after the fallback `result[badPixels] = inputData[badPixels]`:
any pixel still sentinel after the merge loop is replaced by its raw input
value. -/
def Corrector.preRescale (C : Corrector P) (input : Fin P → ℚ) : Fin P → ℚ :=
  fun p => if C.mergedPre input p = -1 then input p else C.mergedPre input p

/-- `Corrector.correct`: merge, fall back to raw for unmapped pixels, then
return `result * self.slope + self.intercept`. -/
def Corrector.correct (C : Corrector P) (input : Fin P → ℚ) : Fin P → ℚ :=
  fun p => C.preRescale input p * C.slope + C.intercept

/-- The list of SubCorrectors the merge loop actually applies before its
early exit (the whole list when no early exit fires). -/
def appliedFrom {P : ℕ} (input : Fin P → ℚ) :
    (Fin P → ℚ) → List (SubCorrector P) → List (SubCorrector P)
  | _, [] => []
  | r, c :: cs =>
    let r2 := overwrite r (c.correct input)
    c :: (if ∀ p, r2 p ≠ -1 then [] else appliedFrom input r2 cs)

/-- The SubCorrectors applied by `Corrector.correct` on a given input. -/
def Corrector.applied (C : Corrector P) (input : Fin P → ℚ) : List (SubCorrector P) :=
  appliedFrom input (fun _ => -1) C.subCorrectors

/-- Fold a sequence of per-pixel SubCorrector outputs by the overwrite rule:
the last non-sentinel value wins, starting from the given initial value. -/
def lastWriteFrom (init : ℚ) (vals : List ℚ) : ℚ :=
  vals.foldl (fun acc v => if v = -1 then acc else v) init

/-- A placeholder SubCorrector used as the default of list lookups performed
at indices that are in range. -/
def noSub (P : ℕ) : SubCorrector P := ⟨[], [], 1⟩

section ConcreteData

/-- Exposure times with a wide gap between two dense clusters: consecutive
spacings are `[1, 1, 98, 1, 1]`, so the median spacing is 1 and the gap of 98
exceeds ten times the median. -/
def timesGap : List ℚ := [0, 1, 2, 100, 101, 102]

/-- A two-pixel frame with the given values at pixels 0 and 1. -/
def frame2 (a b : ℚ) : Fin 2 → ℚ := fun p => if p.val = 0 then a else b

/-- Calibration frames for `timesGap`: pixel 0 rises linearly throughout;
pixel 1 rises within each cluster but drops across the gap, so the two
clusters' per-pixel count ranges overlap on `[15, 30]`. -/
def framesGap : List (Fin 2 → ℚ) :=
  [frame2 10 10, frame2 20 20, frame2 30 30, frame2 40 15, frame2 50 25, frame2 60 35]

/-- The corrector built from the gapped calibration data. -/
def corrGap : Corrector 2 := Corrector.build timesGap framesGap

/-- Input grid for `corrGap`: pixel 0 is far above every cluster range (it is
mapped only by the high-extrapolation bridge, the last SubCorrector, so no
early exit fires before the whole list has been applied), while pixel 1 lies
inside the overlap of both clusters' ranges. -/
def inputGap : Fin 2 → ℚ := frame2 1000 25

/-- A minimal two-exposure calibration: one pixel, counts 0 and 2 at times 0
and 1, giving the global fit slope 2 and intercept 0. -/
def timesTiny : List ℚ := [0, 1]

/-- Frames for `timesTiny`. -/
def framesTiny : List (Fin 1 → ℚ) := [fun _ => 0, fun _ => 2]

/-- The corrector built from the minimal calibration. -/
def corrTiny : Corrector 1 := Corrector.build timesTiny framesTiny

/-- Exposure times whose very first spacing (100) exceeds ten times the median
spacing (1): the gap fires at index 1, closing the cluster `[0]` with a single
exposure time. -/
def timesEarlyGap : List ℚ := [0, 100, 101, 102, 103]

/-- Frames for `timesEarlyGap`. -/
def framesEarlyGap : List (Fin 1 → ℚ) :=
  [fun _ => 10, fun _ => 20, fun _ => 30, fun _ => 40, fun _ => 50]

/-- The corrector built from the early-gap calibration. -/
def corrEarlyGap : Corrector 1 := Corrector.build timesEarlyGap framesEarlyGap

end ConcreteData

section MergeLemmas

/-- The merge loop computed pixelwise: the result at a pixel is the
overwrite-fold (last non-sentinel value wins) of the outputs of exactly the
SubCorrectors the loop applies before its early exit. -/
lemma mergeFrom_eq_lastWrite {P : ℕ} (input : Fin P → ℚ) :
    ∀ (cs : List (SubCorrector P)) (r : Fin P → ℚ) (p : Fin P),
      mergeFrom input r cs p =
        lastWriteFrom (r p) ((appliedFrom input r cs).map (fun c => c.correct input p)) := by
  intro cs
  induction cs with
  | nil => intro r p; rfl
  | cons c cs ih =>
    intro r p
    by_cases h : ∀ q, overwrite r (c.correct input) q ≠ -1
    · simp only [mergeFrom, appliedFrom, if_pos h]
      rfl
    · simp only [mergeFrom, appliedFrom, if_neg h]
      exact ih (overwrite r (c.correct input)) p

/-- A pixel on which every SubCorrector in the list returns the sentinel is
never written: the merge loop leaves the initial value there. -/
lemma mergeFrom_all_sentinel {P : ℕ} (input : Fin P → ℚ)
    (cs : List (SubCorrector P)) (p : Fin P)
    (h : ∀ c ∈ cs, c.correct input p = -1) :
    ∀ r : Fin P → ℚ, mergeFrom input r cs p = r p := by
  induction cs with
  | nil => intro r; rfl
  | cons c cs ih =>
    intro r
    have hc : c.correct input p = -1 := h c (List.mem_cons_self c cs)
    have hr2 : overwrite r (c.correct input) p = r p := by
      simp [overwrite, hc]
    by_cases hall : ∀ q, overwrite r (c.correct input) q ≠ -1
    · simp only [mergeFrom, if_pos hall]
      exact hr2
    · simp only [mergeFrom, if_neg hall]
      rw [ih (fun c hc2 => h c (List.mem_cons_of_mem _ hc2))]
      exact hr2

/-- Provenance of a non-sentinel merge value: it either is the initial value,
or is the (non-sentinel) output of some SubCorrector in the list. -/
lemma mergeFrom_provenance {P : ℕ} (input : Fin P → ℚ) :
    ∀ (cs : List (SubCorrector P)) (r : Fin P → ℚ) (p : Fin P),
      mergeFrom input r cs p = r p ∨
        ∃ c ∈ cs, mergeFrom input r cs p = c.correct input p ∧ c.correct input p ≠ -1 := by
  intro cs
  induction cs with
  | nil => intro r p; exact Or.inl rfl
  | cons c cs ih =>
    intro r p
    by_cases hall : ∀ q, overwrite r (c.correct input) q ≠ -1
    · simp only [mergeFrom, if_pos hall]
      by_cases hc : c.correct input p = -1
      · exact Or.inl (by simp [overwrite, hc])
      · exact Or.inr ⟨c, List.mem_cons_self c cs, by simp [overwrite, hc], hc⟩
    · simp only [mergeFrom, if_neg hall]
      rcases ih (overwrite r (c.correct input)) p with h0 | ⟨c2, hc2, hval, hns⟩
      · by_cases hc : c.correct input p = -1
        · exact Or.inl (by rw [h0]; simp [overwrite, hc])
        · exact Or.inr ⟨c, List.mem_cons_self c cs, by rw [h0]; simp [overwrite, hc], hc⟩
      · exact Or.inr ⟨c2, List.mem_cons_of_mem _ hc2, hval, hns⟩

end MergeLemmas

/-- Claim C1 (amended): in `Corrector.correct`, SubCorrectors are applied in
list order, but a pixel's committed value comes from the LAST SubCorrector —
among those applied before the loop's all-pixels-mapped early exit — that
maps it: a later applied SubCorrector's non-sentinel value replaces an
earlier one's (last-writer-wins, not first-writer-wins). -/
theorem c1_merge_is_last_writer_wins {P : ℕ} (C : Corrector P) (input : Fin P → ℚ)
    (p : Fin P) :
    C.mergedPre input p =
      lastWriteFrom (-1) ((C.applied input).map (fun c => c.correct input p)) :=
  mergeFrom_eq_lastWrite input C.subCorrectors (fun _ => -1) p

/-- Claim C1 (counterexample): on the gapped calibration `corrGap` with input
`inputGap`, the first SubCorrector (the first primary cluster, earliest in
the list) maps pixel 1 to the non-sentinel value 3/2, yet the value committed
by the merge loop at pixel 1 is 101 (written later by the second primary
cluster): the earlier SubCorrector's value was replaced, refuting
first-writer-wins. -/
theorem c1_first_writer_wins_false :
    (corrGap.subCorrectors.getD 0 (noSub 2)).correct inputGap 1 = 3 / 2 ∧
    ((3 : ℚ) / 2 ≠ -1) ∧
    corrGap.mergedPre inputGap 1 = 101 ∧ ((101 : ℚ) ≠ 3 / 2) := by
  refine ⟨?_, ?_, ?_, ?_⟩
  · with_unfolding_all rfl
  · with_unfolding_all decide
  · with_unfolding_all rfl
  · with_unfolding_all decide

/-- Claim C2 (amended): a pixel that remains unmapped (sentinel) after every
SubCorrector has been applied is given the raw input value BEFORE the final
rescale, so in the returned CorrectionResult it appears as the raw value
rescaled through the global fit, `input · slope + intercept` — a rescaled
quantity, not the raw input value itself (and not a sentinel). -/
theorem c2_unmapped_pixel_returns_rescaled_raw {P : ℕ} (C : Corrector P)
    (input : Fin P → ℚ) (p : Fin P)
    (h : ∀ c ∈ C.subCorrectors, c.correct input p = -1) :
    C.correct input p = input p * C.slope + C.intercept := by
  have hm : C.mergedPre input p = -1 :=
    mergeFrom_all_sentinel input C.subCorrectors p h (fun _ => -1)
  simp [Corrector.correct, Corrector.preRescale, hm]

/-- Claim C2 (witness): on the minimal calibration, the input value 200000 is
beyond every SubCorrector's range, and the returned value is the rescaled raw
value. -/
theorem c2_unmapped_pixel_returns_rescaled_raw_witness :
    (∀ c ∈ corrTiny.subCorrectors, c.correct (fun _ => 200000) 0 = -1) ∧
    corrTiny.correct (fun _ => 200000) 0 =
      (200000 : ℚ) * corrTiny.slope + corrTiny.intercept :=
  ⟨by with_unfolding_all decide,
    c2_unmapped_pixel_returns_rescaled_raw corrTiny (fun _ => 200000) 0
      (by with_unfolding_all decide)⟩

/-- Claim C2 (counterexample): on the minimal calibration (global slope 2,
intercept 0), the input 200000 is unmapped by every SubCorrector, yet the
returned value is 400000 — the rescaled raw value, not the raw input value
200000 the claim asserts. -/
theorem c2_raw_passthrough_false :
    (∀ c ∈ corrTiny.subCorrectors, c.correct (fun _ => 200000) 0 = -1) ∧
    corrTiny.correct (fun _ => 200000) 0 = 400000 ∧ ((400000 : ℚ) ≠ 200000) := by
  refine ⟨?_, ?_, ?_⟩
  · with_unfolding_all decide
  · with_unfolding_all rfl
  · with_unfolding_all decide

/-- Claim C3: the claim says construction fails with
`InsufficientCalibrationDataError` for fewer than 2 distinct exposure times
and succeeds for at least 2 — both halves are false, and the code is broken:
the source defines no `InsufficientCalibrationDataError` at all, and under
Python 3 construction NEVER succeeds.  An empty frame list fails at
`mapData[0]` with an IndexError, and every other input — with however many
distinct exposure times — fails with a TypeError, because the constructor
passes the lazy `map(numpy.mean, self.imageData)` iterator to
`numpy.polyfit`. -/
theorem c3_construction_always_fails {P : ℕ} (times : List ℚ)
    (data : List (Fin P → ℚ)) :
    Corrector.tryBuild times data =
      .error (if data.isEmpty then BuildError.indexError else BuildError.typeError) := by
  unfold Corrector.tryBuild npPolyfitChecked
  cases hd : data.isEmpty
  · simp [npNdim]
  · simp

/-- Claim C7 (amended): the synthetic exposure time stored for the low-end
extrapolation bridge is `−intercept/slope` (the exposure at which the global
fit reaches 0 counts, not `(−(2¹⁶−1) − intercept)/slope`), and the one stored
for the high-end bridge is `(2¹⁶−1) − intercept/slope` (the target MINUS the
quotient `intercept/slope`, not the quotient `(target − intercept)/slope`). -/
theorem c7_synthetic_bridge_times {P : ℕ} (times : List ℚ) (data : List (Fin P → ℚ))
    (_hs : (Corrector.build times data).slope ≠ 0) :
    ∃ pre lo hi, (Corrector.build times data).subCorrectors = pre ++ [lo, hi] ∧
      lo.exposureTimes.getD 0 0 =
        -(Corrector.build times data).intercept / (Corrector.build times data).slope ∧
      hi.exposureTimes.getD 1 0 =
        (2 ^ 16 - 1) -
          (Corrector.build times data).intercept / (Corrector.build times data).slope ∧
      lo.sampleRate = 1 ∧ hi.sampleRate = 1 :=
  ⟨_, _, _, rfl, rfl, rfl, rfl, rfl⟩

/-- Claim C7 (witness): the bridge-time identities instantiated on the
minimal calibration, whose global slope is 2. -/
theorem c7_synthetic_bridge_times_witness :
    ∃ pre lo hi, (Corrector.build timesTiny framesTiny).subCorrectors = pre ++ [lo, hi] ∧
      lo.exposureTimes.getD 0 0 =
        -(Corrector.build timesTiny framesTiny).intercept /
          (Corrector.build timesTiny framesTiny).slope ∧
      hi.exposureTimes.getD 1 0 =
        (2 ^ 16 - 1) -
          (Corrector.build timesTiny framesTiny).intercept /
            (Corrector.build timesTiny framesTiny).slope ∧
      lo.sampleRate = 1 ∧ hi.sampleRate = 1 :=
  c7_synthetic_bridge_times timesTiny framesTiny (by with_unfolding_all decide)

/-- Claim C7 (counterexample): on the minimal calibration (slope 2,
intercept 0) the low bridge's stored synthetic time is 0, while the claimed
formula `(target − intercept)/slope` with `target = −(2¹⁶ − 1)` gives
−65535/2. -/
theorem c7_claimed_formula_false :
    (corrTiny.subCorrectors.getD 1 (noSub 1)).exposureTimes.getD 0 0 = 0 ∧
    (-(2 ^ 16 : ℚ) + 1 - corrTiny.intercept) / corrTiny.slope = -65535 / 2 ∧
    ((0 : ℚ) ≠ -65535 / 2) := by
  refine ⟨?_, ?_, ?_⟩
  · with_unfolding_all rfl
  · with_unfolding_all rfl
  · with_unfolding_all decide

/-- A SubCorrector with zero per-pixel dynamic range (all frames equal at the
pixel). -/
def subFlat : SubCorrector 1 := ⟨[1, 2], [fun _ => 5, fun _ => 5], 1⟩

/-- A SubCorrector whose single pixel rises from 5 to 9 over times 1 to 2. -/
def subRise : SubCorrector 1 := ⟨[1, 2], [fun _ => 5, fun _ => 9], 1⟩

/-- Linear interpolation of a table at a fractional index bracketed by the
integer indices `k` and `k + 1` equals the piecewise-linear formula
`table[k] + (idx − k)·(table[k+1] − table[k])`. -/
lemma interpAt_bracket (table : List ℚ) (idx : ℚ) (k : ℕ)
    (hk : (k : ℚ) ≤ idx) (hk1 : idx ≤ (k : ℚ) + 1) :
    interpAt table idx =
      table.getD k 0 + (idx - k) * (table.getD (k + 1) 0 - table.getD k 0) := by
  rcases lt_or_eq_of_le hk1 with hlt | heq
  · have hfloor : Int.floor idx = (k : ℤ) := by
      rw [Int.floor_eq_iff]
      constructor
      · exact_mod_cast hk
      · push_cast
        linarith
    simp only [interpAt, hfloor, Int.toNat_natCast]
    ring
  · have hcast : idx = ((k + 1 : ℕ) : ℚ) := by push_cast; linarith
    have hfloor : Int.floor idx = ((k + 1 : ℕ) : ℤ) := by
      rw [hcast, Int.floor_natCast]
    simp only [interpAt, hfloor, Int.toNat_natCast]
    rw [hcast]
    push_cast
    ring

/-- Claim C4: for any SubCorrector whose observed per-pixel min is strictly
below its max, and any input value whose fractional index
`idx = (numSamples − 1) · (value − min) / (max − min)` lies within
`[0, numSamples − 1]`, `SubCorrector.correct` returns the piecewise-linear
interpolation of that pixel's stored uniform virtual-exposure table at
position `idx`: on any index interval `[k, k + 1]` of the table containing
`idx`, the returned value is `table[k] + (idx − k)·(table[k+1] − table[k])`. -/
theorem c4_lookup_is_piecewise_linear {P : ℕ} (S : SubCorrector P)
    (input : Fin P → ℚ) (p : Fin P) (idx : ℚ) (k : ℕ)
    (hlt : S.minVals p < S.maxVals p)
    (hidx : idx = ((S.numSamples : ℚ) - 1) * (input p - S.minVals p) /
      (S.maxVals p - S.minVals p))
    (h0 : 0 ≤ idx) (h1 : idx ≤ (S.numSamples : ℚ) - 1)
    (hk : (k : ℚ) ≤ idx) (hk1 : idx ≤ (k : ℚ) + 1) :
    S.correct input p = (S.uniformExposures p).getD k 0 +
      (idx - k) * ((S.uniformExposures p).getD (k + 1) 0 -
        (S.uniformExposures p).getD k 0) := by
  have hne : S.maxVals p ≠ S.minVals p := ne_of_gt hlt
  simp only [SubCorrector.correct]
  rw [if_neg hne, ← hidx, mapCoordinates1, if_pos ⟨h0, h1⟩]
  exact interpAt_bracket _ idx k hk hk1

/-- Claim C4 (witness): on `subRise` (min 5, max 9, two samples) the input 7
has fractional index 1/2 and the lookup interpolates the stored table on the
interval `[0, 1]`. -/
theorem c4_lookup_is_piecewise_linear_witness :
    subRise.correct (fun _ => 7) 0 = (subRise.uniformExposures 0).getD 0 0 +
      ((1 : ℚ) / 2 - (0 : ℕ)) * ((subRise.uniformExposures 0).getD (0 + 1) 0 -
        (subRise.uniformExposures 0).getD 0 0) :=
  c4_lookup_is_piecewise_linear subRise (fun _ => 7) 0 (1 / 2) 0
    (by with_unfolding_all decide) (by with_unfolding_all decide)
    (by norm_num) (by with_unfolding_all decide)
    (by norm_num) (by norm_num)

/-- Claim C5: `SubCorrector.correct` is a total per-pixel function (the
embedding is a plain function and no per-pixel domain miss escapes as an
exception), and it returns exactly the sentinel −1 both when the pixel's
observed min equals its observed max (where the source's index computation
divides by zero, yielding an index outside the input extent) and when the
fractional index falls outside `[0, numSamples − 1]`. -/
theorem c5_out_of_domain_is_sentinel {P : ℕ} (S : SubCorrector P)
    (input : Fin P → ℚ) (p : Fin P) :
    (S.maxVals p = S.minVals p → S.correct input p = -1) ∧
    (S.maxVals p ≠ S.minVals p →
      (((S.numSamples : ℚ) - 1) * (input p - S.minVals p) /
          (S.maxVals p - S.minVals p) < 0 ∨
        (S.numSamples : ℚ) - 1 <
          ((S.numSamples : ℚ) - 1) * (input p - S.minVals p) /
            (S.maxVals p - S.minVals p)) →
      S.correct input p = -1) := by
  constructor
  · intro h
    simp only [SubCorrector.correct]
    rw [if_pos h]
  · intro hne hout
    simp only [SubCorrector.correct]
    rw [if_neg hne, mapCoordinates1, if_neg]
    rintro ⟨ha, hb⟩
    rcases hout with h | h
    · linarith
    · linarith

/-- Claim C5 (witness): the sentinel is returned on a zero-range pixel
(`subFlat`, where min = max = 5) and on an out-of-range index (`subRise` at
input 100, whose index exceeds numSamples − 1). -/
theorem c5_out_of_domain_is_sentinel_witness :
    subFlat.correct (fun _ => 5) 0 = -1 ∧ subRise.correct (fun _ => 100) 0 = -1 :=
  ⟨(c5_out_of_domain_is_sentinel subFlat (fun _ => 5) 0).1
      (by with_unfolding_all decide),
    (c5_out_of_domain_is_sentinel subRise (fun _ => 100) 0).2
      (by with_unfolding_all decide)
      (Or.inr (by with_unfolding_all decide))⟩

/-- Every index list the segmentation loop emits is nonempty, provided the
accumulated cluster it starts from is nonempty. -/
lemma segsFrom_ne_nil (times : List ℚ) (sp : ℚ) :
    ∀ (rest cur : List ℕ), cur ≠ [] →
      ∀ seg ∈ segsFrom times sp cur rest, seg ≠ [] := by
  intro rest
  induction rest with
  | nil =>
    intro cur hc seg hseg
    simp only [segsFrom, List.mem_singleton] at hseg
    exact hseg ▸ hc
  | cons i rest ih =>
    intro cur hc seg hseg
    by_cases h0 : i = 0
    · rw [segsFrom, if_pos h0] at hseg
      exact ih (cur ++ [i]) (by simp) seg hseg
    · by_cases hgap : 10 * sp < times.getD i 0 - times.getD (i - 1) 0
      · rw [segsFrom, if_neg h0, if_pos hgap] at hseg
        rw [List.mem_cons, List.mem_cons] at hseg
        rcases hseg with heq | heq | hmem2
        · exact heq ▸ hc
        · simp [heq]
        · exact ih [i] (by simp) seg hmem2
      · rw [segsFrom, if_neg h0, if_neg hgap] at hseg
        exact ih (cur ++ [i]) (by simp) seg hseg

/-- For a nonempty exposure list, every segment of the gap segmentation is
nonempty. -/
lemma gapSegments_ne_nil (times : List ℚ) (sp : ℚ) (h : times ≠ []) :
    ∀ seg ∈ gapSegments times sp, seg ≠ [] := by
  obtain ⟨n, hn⟩ : ∃ n, times.length = n + 1 :=
    ⟨times.length - 1, (Nat.succ_pred_eq_of_pos (List.length_pos.mpr h)).symm⟩
  intro seg hseg
  unfold gapSegments at hseg
  rw [hn, List.range_succ_eq_map] at hseg
  rw [segsFrom, if_pos rfl] at hseg
  exact segsFrom_ne_nil times sp _ ([] ++ [0]) (by simp) seg hseg

/-- Claim C9 (amended): every SubCorrector instantiated by construction is
passed at least ONE exposure time with matching frames, and the two
extrapolation bridges always receive exactly two — but a primary cluster can
receive a single exposure time (when a large gap immediately follows the
first exposure, or two large gaps occur at consecutive positions), so "at
least 2" does not hold for every SubCorrector. -/
theorem c9_every_subcorrector_nonempty {P : ℕ} (times : List ℚ)
    (data : List (Fin P → ℚ)) (h : times ≠ []) :
    (∀ c ∈ (Corrector.build times data).subCorrectors, 1 ≤ c.exposureTimes.length) ∧
    (∃ pre lo hi, (Corrector.build times data).subCorrectors = pre ++ [lo, hi] ∧
      lo.exposureTimes.length = 2 ∧ hi.exposureTimes.length = 2) := by
  constructor
  · intro c hc
    have hstruct : (Corrector.build times data).subCorrectors =
        (gapSegments times (npMedian (diffs times))).map
          (fun seg => subOf times data seg 2) ++
        [extCorrector true (polyfit1 times (data.map frameMean)).1
            (polyfit1 times (data.map frameMean)).2
            (((gapSegments times (npMedian (diffs times))).map
              (fun seg => subOf times data seg 2)).headD (noSub P)),
          extCorrector false (polyfit1 times (data.map frameMean)).1
            (polyfit1 times (data.map frameMean)).2
            (((gapSegments times (npMedian (diffs times))).map
              (fun seg => subOf times data seg 2)).getLastD (noSub P))] := rfl
    rw [hstruct] at hc
    rcases List.mem_append.mp hc with hmem | hmem
    · rcases List.mem_map.mp hmem with ⟨seg, hseg, hcseg⟩
      have hne := gapSegments_ne_nil times (npMedian (diffs times)) h seg hseg
      have : c.exposureTimes.length = seg.length := by
        rw [← hcseg]; simp [subOf]
      rw [this]
      exact Nat.one_le_iff_ne_zero.mpr (by simpa using hne)
    · rw [List.mem_cons, List.mem_singleton] at hmem
      rcases hmem with h1 | h1
      · rw [h1]; simp [extCorrector]
      · rw [h1]; simp [extCorrector]
  · exact ⟨_, _, _, rfl, rfl, rfl⟩

/-- Claim C9 (witness): on the early-gap calibration, every stored
SubCorrector has a nonempty exposure list and the two extrapolation bridges
have exactly two. -/
theorem c9_every_subcorrector_nonempty_witness :
    (∀ c ∈ (Corrector.build timesEarlyGap framesEarlyGap).subCorrectors,
      1 ≤ c.exposureTimes.length) ∧
    (∃ pre lo hi,
      (Corrector.build timesEarlyGap framesEarlyGap).subCorrectors = pre ++ [lo, hi] ∧
      lo.exposureTimes.length = 2 ∧ hi.exposureTimes.length = 2) :=
  c9_every_subcorrector_nonempty timesEarlyGap framesEarlyGap (by simp [timesEarlyGap])

/-- Claim C9 (counterexample): on the early-gap calibration (spacings
`[100, 1, 1, 1]`, median 1, so the gap of 100 fires at index 1) the first
primary cluster is closed containing only index 0: a SubCorrector is
instantiated with a single exposure time, refuting "at least 2 for every
SubCorrector". -/
theorem c9_single_time_subcorrector_exists :
    ∃ c ∈ corrEarlyGap.subCorrectors, c.exposureTimes.length < 2 := by
  with_unfolding_all decide

/-- The gap predicate of the segmentation: position `j` opens a gap when the
spacing to the previous exposure time exceeds ten times the median spacing. -/
def gapAt (times : List ℚ) (sp : ℚ) (j : ℕ) : Prop :=
  10 * sp < times.getD j 0 - times.getD (j - 1) 0

/-- The specification's declarative description of the segmentation, as a
judgment on a list of index segments starting from cluster start `s`: either
no further gap occurs and the final primary cluster is the run from `s` to
the last index, or the next gap occurs at position `g` (no gap strictly
between `s` and `g`), the primary cluster `[s .. g−1]` is closed, the
two-index bridge `[g−1, g]` over exactly the gap-adjacent exposures follows,
and segmentation continues with a new cluster starting at the later
gap-adjacent index `g`. -/
inductive SpecSegs (isGap : ℕ → Prop) (n : ℕ) : ℕ → List (List ℕ) → Prop
  | last (s : ℕ) (h : ∀ j, s < j → j < n → ¬isGap j) :
      SpecSegs isGap n s [List.range' s (n - s)]
  | step (s g : ℕ) (L : List (List ℕ)) (hs : s < g) (hg : g < n) (hgap : isGap g)
      (hnogap : ∀ j, s < j → j < g → ¬isGap j)
      (hrest : SpecSegs isGap n g L) :
      SpecSegs isGap n s (List.range' s (g - s) :: [g - 1, g] :: L)

/-- The segmentation loop, started on a cluster accumulated as the run
`[s .. i−1]` with the indices `i, …, n−1` still to process and no gap strictly
inside the accumulated run, produces a segment list satisfying the
specification's description from `s`. -/
lemma segsFrom_spec (times : List ℚ) (sp : ℚ) (n : ℕ) :
    ∀ (fuel s i : ℕ), n - i ≤ fuel → s < i → i ≤ n →
      (∀ j, s < j → j < i → ¬gapAt times sp j) →
      SpecSegs (gapAt times sp) n s
        (segsFrom times sp (List.range' s (i - s)) (List.range' i (n - i))) := by
  intro fuel
  induction fuel with
  | zero =>
    intro s i hfuel hsi hin hnogap
    have hin2 : i = n := by omega
    subst hin2
    rw [Nat.sub_self, List.range'_zero]
    exact SpecSegs.last s (fun j h1 h2 => hnogap j h1 h2)
  | succ fuel ih =>
    intro s i hfuel hsi hin hnogap
    rcases eq_or_lt_of_le hin with heq | hlt
    · subst heq
      rw [Nat.sub_self, List.range'_zero]
      exact SpecSegs.last s (fun j h1 h2 => hnogap j h1 h2)
    · have hsplit : n - i = (n - (i + 1)) + 1 := by omega
      rw [hsplit, List.range'_succ]
      rw [segsFrom, if_neg (by omega : ¬i = 0)]
      by_cases hgap : 10 * sp < times.getD i 0 - times.getD (i - 1) 0
      · rw [if_pos hgap]
        refine SpecSegs.step s i _ hsi hlt hgap (fun j h1 h2 => hnogap j h1 h2) ?_
        have hone : [i] = List.range' i ((i + 1) - i) := by
          simp
        rw [hone]
        exact ih i (i + 1) (by omega) (by omega) (by omega)
          (fun j ha hb => absurd ha (by omega))
      · rw [if_neg hgap]
        have hcat : List.range' s (i - s) ++ [i] = List.range' s ((i + 1) - s) := by
          have h2 : (i + 1) - s = (i - s) + 1 := by omega
          rw [h2, List.range'_concat]
          have h3 : s + 1 * (i - s) = i := by omega
          rw [h3]
        rw [hcat]
        refine ih s (i + 1) (by omega) (by omega) (by omega) ?_
        intro j ha hb
        rcases Nat.lt_succ_iff_lt_or_eq.mp hb with hlt2 | heq2
        · exact hnogap j ha hlt2
        · subst heq2
          exact hgap

/-- The segmentation computed by the construction loop satisfies the
specification's declarative description, starting from cluster start 0. -/
lemma gapSegments_spec (times : List ℚ) (sp : ℚ) (h : times ≠ []) :
    SpecSegs (gapAt times sp) times.length 0 (gapSegments times sp) := by
  obtain ⟨m, hm⟩ : ∃ m, times.length = m + 1 :=
    ⟨times.length - 1, (Nat.succ_pred_eq_of_pos (List.length_pos.mpr h)).symm⟩
  unfold gapSegments
  rw [hm, List.range_eq_range', List.range'_succ]
  rw [segsFrom, if_pos rfl]
  have h0 : ([] : List ℕ) ++ [0] = List.range' 0 (1 - 0) := by simp
  rw [h0]
  have hrest : List.range' (0 + 1) m = List.range' 1 ((m + 1) - 1) := by simp
  rw [hrest]
  exact segsFrom_spec times sp (m + 1) (m + 1) 0 1
    (by omega) (by omega) (by omega) (fun j ha hb => absurd ha (by omega))

/-- Claim C6: the SubCorrector list stored by construction is exactly the
primary clusters interleaved with gap bridges in time order (all with
supersampling factor 2) — where each gap over ten times the median spacing
closes the current cluster, inserts the two-frame bridge over exactly the two
gap-adjacent exposures, and restarts the cluster at the later gap-adjacent
index — followed by the low and then the high boundary-extrapolation bridge
(supersampling factor 1) last. -/
theorem c6_subcorrector_list_structure {P : ℕ} (times : List ℚ)
    (data : List (Fin P → ℚ)) (h : times ≠ []) :
    SpecSegs (gapAt times (npMedian (diffs times))) times.length 0
      (gapSegments times (npMedian (diffs times))) ∧
    (Corrector.build times data).subCorrectors =
      (gapSegments times (npMedian (diffs times))).map
        (fun seg => subOf times data seg 2) ++
      [extCorrector true (Corrector.build times data).slope
          (Corrector.build times data).intercept
          (((gapSegments times (npMedian (diffs times))).map
            (fun seg => subOf times data seg 2)).headD (noSub P)),
        extCorrector false (Corrector.build times data).slope
          (Corrector.build times data).intercept
          (((gapSegments times (npMedian (diffs times))).map
            (fun seg => subOf times data seg 2)).getLastD (noSub P))] ∧
    (∀ seg ∈ gapSegments times (npMedian (diffs times)),
      (subOf times data seg 2 : SubCorrector P).sampleRate = 2) ∧
    (∀ slope intercept : ℚ, ∀ S : SubCorrector P,
      (extCorrector true slope intercept S).sampleRate = 1 ∧
      (extCorrector false slope intercept S).sampleRate = 1) := by
  exact ⟨gapSegments_spec times (npMedian (diffs times)) h, rfl,
    fun seg _ => rfl, fun slope intercept S => ⟨rfl, rfl⟩⟩

/-- Claim C6 (witness): the structure theorem instantiated on the gapped
calibration dataset. -/
theorem c6_subcorrector_list_structure_witness :
    SpecSegs (gapAt timesGap (npMedian (diffs timesGap))) timesGap.length 0
      (gapSegments timesGap (npMedian (diffs timesGap))) ∧
    (Corrector.build timesGap framesGap).subCorrectors =
      (gapSegments timesGap (npMedian (diffs timesGap))).map
        (fun seg => subOf timesGap framesGap seg 2) ++
      [extCorrector true (Corrector.build timesGap framesGap).slope
          (Corrector.build timesGap framesGap).intercept
          (((gapSegments timesGap (npMedian (diffs timesGap))).map
            (fun seg => subOf timesGap framesGap seg 2)).headD (noSub 2)),
        extCorrector false (Corrector.build timesGap framesGap).slope
          (Corrector.build timesGap framesGap).intercept
          (((gapSegments timesGap (npMedian (diffs timesGap))).map
            (fun seg => subOf timesGap framesGap seg 2)).getLastD (noSub 2))] ∧
    (∀ seg ∈ gapSegments timesGap (npMedian (diffs timesGap)),
      (subOf timesGap framesGap seg 2 : SubCorrector 2).sampleRate = 2) ∧
    (∀ slope intercept : ℚ, ∀ S : SubCorrector 2,
      (extCorrector true slope intercept S).sampleRate = 1 ∧
      (extCorrector false slope intercept S).sampleRate = 1) :=
  c6_subcorrector_list_structure timesGap framesGap (by simp [timesGap])

section LeastSquares

/-- The determinant `n·Σx² − (Σx)²` of the degree-one least-squares normal
equations. -/
def lsqDet (xs : List ℚ) : ℚ :=
  (xs.length : ℚ) * (xs.map (fun v => v * v)).sum - xs.sum * xs.sum

/-- Sum of squared deviations of the elements of a list from a point. -/
def sqDevSum (x : ℚ) (xs : List ℚ) : ℚ := (xs.map (fun y => (x - y) ^ 2)).sum

lemma sqDevSum_nonneg (x : ℚ) (xs : List ℚ) : 0 ≤ sqDevSum x xs := by
  apply List.sum_nonneg
  intro v hv
  rcases List.mem_map.mp hv with ⟨y, _, rfl⟩
  positivity

lemma sqDevSum_expand (x : ℚ) (xs : List ℚ) :
    sqDevSum x xs = (xs.length : ℚ) * x ^ 2 - 2 * x * xs.sum +
      (xs.map (fun v => v * v)).sum := by
  induction xs with
  | nil => simp [sqDevSum]
  | cons y ys ih =>
    simp only [sqDevSum, List.map_cons, List.sum_cons, List.length_cons] at ih ⊢
    rw [ih]
    push_cast
    ring

lemma lsqDet_cons (x : ℚ) (xs : List ℚ) :
    lsqDet (x :: xs) = sqDevSum x xs + lsqDet xs := by
  simp only [lsqDet, List.map_cons, List.sum_cons, List.length_cons, sqDevSum_expand]
  push_cast
  ring

lemma lsqDet_nonneg (xs : List ℚ) : 0 ≤ lsqDet xs := by
  induction xs with
  | nil => simp [lsqDet]
  | cons x xs ih =>
    rw [lsqDet_cons]
    have := sqDevSum_nonneg x xs
    linarith

/-- Two distinct leading sample points make the least-squares system
nonsingular. -/
lemma lsqDet_pos (x0 x1 : ℚ) (xs : List ℚ) (hne : x0 ≠ x1) :
    0 < lsqDet (x0 :: x1 :: xs) := by
  rw [lsqDet_cons]
  have h1 : (x0 - x1) ^ 2 ≤ sqDevSum x0 (x1 :: xs) := by
    simp only [sqDevSum, List.map_cons, List.sum_cons]
    have := sqDevSum_nonneg x0 xs
    simp only [sqDevSum] at this
    linarith
  have h2 : 0 < (x0 - x1) ^ 2 := by
    have hsub : x0 - x1 ≠ 0 := sub_ne_zero_of_ne hne
    positivity
  have h3 := lsqDet_nonneg (x1 :: xs)
  linarith

lemma zip_map_self {α β : Type} (f : α → β) (xs : List α) :
    xs.zip (xs.map f) = xs.map (fun x => (x, f x)) := by
  induction xs with
  | nil => rfl
  | cons x xs ih => simp [ih]

lemma sum_map_affine (a b : ℚ) (xs : List ℚ) :
    (xs.map (fun x => a * x + b)).sum = a * xs.sum + b * xs.length := by
  induction xs with
  | nil => simp
  | cons x xs ih =>
    simp only [List.map_cons, List.sum_cons, List.length_cons, ih]
    push_cast
    ring

lemma sum_map_xfx (a b : ℚ) (xs : List ℚ) :
    (xs.map (fun x => x * (a * x + b))).sum =
      a * (xs.map (fun v => v * v)).sum + b * xs.sum := by
  induction xs with
  | nil => simp
  | cons x xs ih =>
    simp only [List.map_cons, List.sum_cons, ih]
    ring

/-- Degree-one least squares recovers an exact linear relationship: when the
fitted values satisfy `y = a·x + b` exactly and the sample points are not all
equal, `polyfit1` returns exactly `(a, b)`. -/
lemma polyfit1_linear (a b : ℚ) (xs : List ℚ) (hd : lsqDet xs ≠ 0) :
    polyfit1 xs (xs.map (fun x => a * x + b)) = (a, b) := by
  have hd2 : ¬((xs.length : ℚ) * (xs.map (fun v => v * v)).sum - xs.sum * xs.sum = 0) := hd
  unfold polyfit1
  rw [if_neg hd2]
  have hzip : ((xs.zip (xs.map (fun x => a * x + b))).map (fun q => q.1 * q.2)).sum =
      a * (xs.map (fun v => v * v)).sum + b * xs.sum := by
    rw [zip_map_self, List.map_map]
    exact sum_map_xfx a b xs
  rw [hzip, sum_map_affine]
  have hdq : (xs.length : ℚ) * (xs.map (fun v => v * v)).sum - xs.sum * xs.sum ≠ 0 := hd
  refine Prod.ext ?_ ?_
  · show ((xs.length : ℚ) * (a * (xs.map (fun v => v * v)).sum + b * xs.sum) -
      xs.sum * (a * xs.sum + b * xs.length)) /
        ((xs.length : ℚ) * (xs.map (fun v => v * v)).sum - xs.sum * xs.sum) = a
    field_simp
    ring
  · show ((xs.map (fun v => v * v)).sum * (a * xs.sum + b * xs.length) -
      xs.sum * (a * (xs.map (fun v => v * v)).sum + b * xs.sum)) /
        ((xs.length : ℚ) * (xs.map (fun v => v * v)).sum - xs.sum * xs.sum) = b
    field_simp
    ring

end LeastSquares

section ListOrderHelpers

lemma getLastD_congr {α : Type} (l : List α) (h : l ≠ []) (d e : α) :
    l.getLastD d = l.getLastD e := by
  rw [List.getLastD_eq_getLast?, List.getLastD_eq_getLast?, List.getLast?_eq_getLast l h]
  rfl

lemma headD_map_of_ne_nil {α β : Type} (f : α → β) (l : List α) (h : l ≠ []) (d : β) (e : α) :
    (l.map f).headD d = f (l.headD e) := by
  cases l with
  | nil => exact absurd rfl h
  | cons x xs => simp

lemma getLastD_map_of_ne_nil {α β : Type} (f : α → β) :
    ∀ (l : List α), l ≠ [] → ∀ (d : β) (e : α), (l.map f).getLastD d = f (l.getLastD e)
  | [], h, _, _ => absurd rfl h
  | [x], _, _, _ => by simp
  | x :: y :: ys, _, d, e => by
    rw [List.map_cons, List.getLastD_cons, List.getLastD_cons]
    rw [getLastD_congr ((y :: ys).map f) (by simp) (f x) d]
    exact getLastD_map_of_ne_nil f (y :: ys) (by simp) d e

lemma foldl_min_le_init (xs : List ℚ) : ∀ x : ℚ, xs.foldl min x ≤ x := by
  induction xs with
  | nil => intro x; exact le_refl x
  | cons y ys ih =>
    intro x
    calc (y :: ys).foldl min x = ys.foldl min (min x y) := rfl
    _ ≤ min x y := ih (min x y)
    _ ≤ x := min_le_left x y

lemma init_le_foldl_max (xs : List ℚ) : ∀ x : ℚ, x ≤ xs.foldl max x := by
  induction xs with
  | nil => intro x; exact le_refl x
  | cons y ys ih =>
    intro x
    calc x ≤ max x y := le_max_left x y
    _ ≤ ys.foldl max (max x y) := ih (max x y)
    _ = (y :: ys).foldl max x := rfl

lemma foldl_min_le_mem (xs : List ℚ) : ∀ (x y : ℚ), y ∈ xs → xs.foldl min x ≤ y := by
  induction xs with
  | nil => intro x y hy; exact absurd hy (List.not_mem_nil y)
  | cons z zs ih =>
    intro x y hy
    rcases List.mem_cons.mp hy with rfl | hy2
    · calc (y :: zs).foldl min x = zs.foldl min (min x y) := rfl
      _ ≤ min x y := foldl_min_le_init zs (min x y)
      _ ≤ y := min_le_right x y
    · exact ih (min x z) y hy2

lemma mem_le_foldl_max (xs : List ℚ) : ∀ (x y : ℚ), y ∈ xs → y ≤ xs.foldl max x := by
  induction xs with
  | nil => intro x y hy; exact absurd hy (List.not_mem_nil y)
  | cons z zs ih =>
    intro x y hy
    rcases List.mem_cons.mp hy with rfl | hy2
    · calc y ≤ max x y := le_max_right x y
      _ ≤ zs.foldl max (max x y) := init_le_foldl_max zs (max x y)
      _ = (y :: zs).foldl max x := rfl
    · exact ih (max x z) y hy2

lemma listMin_le_mem (l : List ℚ) (y : ℚ) (hy : y ∈ l) : listMin l ≤ y := by
  cases l with
  | nil => exact absurd hy (List.not_mem_nil y)
  | cons x xs =>
    rcases List.mem_cons.mp hy with rfl | hy2
    · exact foldl_min_le_init xs y
    · exact foldl_min_le_mem xs x y hy2

lemma mem_le_listMax (l : List ℚ) (y : ℚ) (hy : y ∈ l) : y ≤ listMax l := by
  cases l with
  | nil => exact absurd hy (List.not_mem_nil y)
  | cons x xs =>
    rcases List.mem_cons.mp hy with rfl | hy2
    · exact init_le_foldl_max xs y
    · exact mem_le_foldl_max xs x y hy2

lemma listMin_le_listMax (l : List ℚ) (h : l ≠ []) : listMin l ≤ listMax l := by
  cases l with
  | nil => exact absurd rfl h
  | cons x xs =>
    calc listMin (x :: xs) ≤ x := foldl_min_le_init xs x
    _ ≤ listMax (x :: xs) := init_le_foldl_max xs x

lemma chain'_le_head_le (x : ℚ) (xs : List ℚ) (h : List.Chain' (· ≤ ·) (x :: xs)) :
    ∀ y ∈ xs, x ≤ y := by
  have hp : List.Pairwise (· ≤ ·) (x :: xs) := List.chain'_iff_pairwise.mp h
  exact (List.pairwise_cons.mp hp).1

lemma foldl_min_all_ge (xs : List ℚ) : ∀ x : ℚ, (∀ y ∈ xs, x ≤ y) → xs.foldl min x = x := by
  induction xs with
  | nil => intro x _; rfl
  | cons y ys ih =>
    intro x hall
    have hxy : min x y = x := min_eq_left (hall y (List.mem_cons_self y ys))
    calc (y :: ys).foldl min x = ys.foldl min (min x y) := rfl
    _ = ys.foldl min x := by rw [hxy]
    _ = x := ih x (fun z hz => hall z (List.mem_cons_of_mem y hz))

/-- The minimum of a nonincreasing-free (sorted ascending) list is its head. -/
lemma listMin_sorted (x : ℚ) (xs : List ℚ) (h : List.Chain' (· ≤ ·) (x :: xs)) :
    listMin (x :: xs) = x :=
  foldl_min_all_ge xs x (chain'_le_head_le x xs h)

/-- The maximum of a sorted-ascending list is its last element. -/
lemma listMax_sorted : ∀ (x : ℚ) (xs : List ℚ), List.Chain' (· ≤ ·) (x :: xs) →
    listMax (x :: xs) = (x :: xs).getLastD 0
  | x, [], _ => rfl
  | x, y :: ys, h => by
    have hxy : x ≤ y := (List.chain'_cons.mp h).1
    have htail : List.Chain' (· ≤ ·) (y :: ys) := (List.chain'_cons.mp h).2
    have h1 : listMax (x :: y :: ys) = listMax (y :: ys) := by
      show (y :: ys).foldl max x = ys.foldl max y
      show ys.foldl max (max x y) = ys.foldl max y
      rw [max_eq_right hxy]
    rw [h1, listMax_sorted y ys htail]
    conv_rhs => rw [List.getLastD_cons]
    exact (getLastD_congr (y :: ys) (by simp) x 0).symm

end ListOrderHelpers

section LinspaceHelpers

lemma linspace_length (a b : ℚ) (n : ℕ) : (linspace a b n).length = n := by
  unfold linspace
  rw [List.length_map, List.length_range]

lemma linspace_getD (a b : ℚ) (n k : ℕ) (hn : 2 ≤ n) (hk : k < n) :
    (linspace a b n).getD k 0 = a + (k : ℚ) * (b - a) / ((n : ℚ) - 1) := by
  have hlen : k < (linspace a b n).length := by rw [linspace_length]; exact hk
  rw [List.getD_eq_getElem _ _ hlen]
  unfold linspace
  simp only [List.getElem_map, List.getElem_range]
  rw [if_neg (by omega)]

lemma linspace_mem_bounds (a b : ℚ) (n : ℕ) (hab : a ≤ b) :
    ∀ u ∈ linspace a b n, a ≤ u ∧ u ≤ b := by
  intro u hu
  unfold linspace at hu
  rcases List.mem_map.mp hu with ⟨k, hk, rfl⟩
  rw [List.mem_range] at hk
  by_cases h1 : n ≤ 1
  · rw [if_pos h1]
    exact ⟨le_refl a, hab⟩
  · rw [if_neg h1]
    have hn1 : (1 : ℚ) ≤ (n : ℚ) - 1 := by
      have h2 : (2 : ℚ) ≤ (n : ℚ) := by exact_mod_cast (by omega : 2 ≤ n)
      linarith
    have hkn : (k : ℚ) ≤ (n : ℚ) - 1 := by
      have h3 : (k : ℚ) + 1 ≤ (n : ℚ) := by exact_mod_cast (by omega : k + 1 ≤ n)
      linarith
    constructor
    · have h4 : 0 ≤ (k : ℚ) * (b - a) / ((n : ℚ) - 1) :=
        div_nonneg (mul_nonneg (Nat.cast_nonneg k) (by linarith)) (by linarith)
      linarith
    · have hle : (k : ℚ) * (b - a) / ((n : ℚ) - 1) ≤ b - a := by
        rw [div_le_iff₀ (by linarith : (0 : ℚ) < (n : ℚ) - 1)]
        calc (k : ℚ) * (b - a) ≤ ((n : ℚ) - 1) * (b - a) :=
              mul_le_mul_of_nonneg_right hkn (by linarith)
        _ = (b - a) * ((n : ℚ) - 1) := by ring
      linarith

end LinspaceHelpers

section InterpHelpers

lemma scanIdx_cons_of_le (x x1 : ℚ) (xr : List ℚ) (h : x1 ≤ x) :
    scanIdx x (x1 :: xr) = scanIdx x xr + 1 := by
  unfold scanIdx
  rw [List.takeWhile_cons, if_pos (by simpa using h)]
  rw [List.length_cons]

lemma scanIdx_cons_of_gt (x x1 : ℚ) (xr : List ℚ) (h : x < x1) :
    scanIdx x (x1 :: xr) = 0 := by
  unfold scanIdx
  rw [List.takeWhile_cons, if_neg (by simpa using not_le.mpr h)]
  rfl

/-- Dropping the first point of an interpolation table does not change the
result of `numpy.interp` when the query point is at or beyond the second
abscissa. -/
lemma npInterp_step (x x0 f0 : ℚ) (xp fp : List ℚ) (hxp : xp ≠ []) (hfp : fp ≠ [])
    (h0 : x0 ≤ x) (hhead : xp.headD 0 ≤ x) :
    npInterp x (x0 :: xp) (f0 :: fp) = npInterp x xp fp := by
  obtain ⟨x1, xr, rfl⟩ := List.exists_cons_of_ne_nil hxp
  obtain ⟨g1, gr, rfl⟩ := List.exists_cons_of_ne_nil hfp
  simp only [List.headD_cons] at hhead
  have hlast : (x0 :: x1 :: xr).getLastD 0 = (x1 :: xr).getLastD 0 := by
    rw [List.getLastD_cons]
    exact getLastD_congr _ (by simp) x0 0
  have hflast : (f0 :: g1 :: gr).getLastD 0 = (g1 :: gr).getLastD 0 := by
    rw [List.getLastD_cons]
    exact getLastD_congr _ (by simp) f0 0
  have hsc : scanIdx x (x1 :: xr) = scanIdx x xr + 1 := scanIdx_cons_of_le x x1 xr hhead
  simp only [npInterp]
  rw [hlast, hflast, hsc]
  by_cases hl : (x1 :: xr).getLastD 0 < x
  · rw [if_pos hl, if_pos hl]
  · rw [if_neg hl, if_neg hl, if_neg (not_lt.mpr h0), if_neg (not_lt.mpr hhead)]
    simp only [List.length_cons]
    by_cases hc1 : scanIdx x xr + 1 = xr.length + 1
    · rw [if_pos (by omega : scanIdx x xr + 1 + 1 = xr.length + 1 + 1), if_pos hc1]
    · rw [if_neg (by omega : ¬scanIdx x xr + 1 + 1 = xr.length + 1 + 1), if_neg hc1]
      have hA : (x0 :: x1 :: xr).getD (scanIdx x xr + 1) 0 =
          (x1 :: xr).getD (scanIdx x xr) 0 := List.getD_cons_succ
      have hA2 : (x0 :: x1 :: xr).getD (scanIdx x xr + 1 + 1) 0 =
          (x1 :: xr).getD (scanIdx x xr + 1) 0 := List.getD_cons_succ
      have hB : (f0 :: g1 :: gr).getD (scanIdx x xr + 1) 0 =
          (g1 :: gr).getD (scanIdx x xr) 0 := List.getD_cons_succ
      have hB2 : (f0 :: g1 :: gr).getD (scanIdx x xr + 1 + 1) 0 =
          (g1 :: gr).getD (scanIdx x xr + 1) 0 := List.getD_cons_succ
      rw [hA, hA2, hB, hB2]

/-- `numpy.interp` inverts an exactly affine table: interpolating the pairs
`(a·t + b, t)` over strictly increasing `t` at any point of the covered
count range returns exactly `(x − b)/a`. -/
lemma npInterp_affine (a b : ℚ) (ha : 0 < a) :
    ∀ ts : List ℚ, List.Chain' (· < ·) ts → ts ≠ [] → ∀ x : ℚ,
      a * ts.headD 0 + b ≤ x → x ≤ a * ts.getLastD 0 + b →
      npInterp x (ts.map (fun t => a * t + b)) ts = (x - b) / a := by
  intro ts
  induction ts with
  | nil => intro _ hne; exact absurd rfl hne
  | cons t0 rest ih =>
    intro hch hne x hx1 hx2
    simp only [List.headD_cons] at hx1
    cases rest with
    | nil =>
      have hgl : ([t0] : List ℚ).getLastD 0 = t0 := rfl
      rw [hgl] at hx2
      have hx : x = a * t0 + b := le_antisymm hx2 hx1
      subst hx
      show npInterp (a * t0 + b) [a * t0 + b] [t0] = (a * t0 + b - b) / a
      simp only [npInterp, scanIdx, List.takeWhile_nil, List.length_nil, List.length_cons,
        show ([a * t0 + b] : List ℚ).getLastD 0 = a * t0 + b from rfl,
        show ([t0] : List ℚ).getLastD 0 = t0 from rfl,
        lt_self_iff_false, if_false, if_true]
      field_simp
    | cons t1 rest2 =>
      have ht01 : t0 < t1 := (List.chain'_cons.mp hch).1
      have hch2 : List.Chain' (· < ·) (t1 :: rest2) := (List.chain'_cons.mp hch).2
      have hlast2 : (t0 :: t1 :: rest2).getLastD 0 = (t1 :: rest2).getLastD 0 := by
        rw [List.getLastD_cons]
        exact getLastD_congr _ (by simp) t0 0
      rw [hlast2] at hx2
      by_cases hcase : x < a * t1 + b
      · -- the bracketing interval is [t0, t1]: direct evaluation
        have hmapgl : ((t0 :: t1 :: rest2).map (fun t => a * t + b)).getLastD 0 =
            a * ((t1 :: rest2).getLastD 0) + b := by
          rw [getLastD_map_of_ne_nil _ _ (by simp) 0 0, hlast2]
        show npInterp x ((a * t0 + b) :: (a * t1 + b) ::
          rest2.map (fun t => a * t + b)) (t0 :: t1 :: rest2) = (x - b) / a
        simp only [npInterp]
        rw [show ((a * t0 + b) :: (a * t1 + b) ::
          rest2.map (fun t => a * t + b)).getLastD 0 =
            a * ((t1 :: rest2).getLastD 0) + b from hmapgl]
        rw [if_neg (not_lt.mpr hx2), if_neg (not_lt.mpr hx1)]
        rw [scanIdx_cons_of_gt x (a * t1 + b) _ hcase]
        rw [if_neg (by simp only [List.length_cons]; omega)]
        rw [show ((a * t0 + b) :: (a * t1 + b) ::
          rest2.map (fun t => a * t + b)).getD 0 0 = a * t0 + b from rfl]
        by_cases heq0 : a * t0 + b = x
        · rw [if_pos heq0]
          show t0 = (x - b) / a
          rw [← heq0]
          field_simp
        · rw [if_neg heq0]
          show t0 + (x - (a * t0 + b)) * (t1 - t0) / (a * t1 + b - (a * t0 + b)) =
            (x - b) / a
          have hd : a * t1 + b - (a * t0 + b) = a * (t1 - t0) := by ring
          rw [hd]
          have ht10 : t1 - t0 ≠ 0 := sub_ne_zero_of_ne (ne_of_gt ht01)
          field_simp
          ring
      · -- the query lies at or beyond the second point: drop the head
        push_neg at hcase
        show npInterp x ((a * t0 + b) :: (t1 :: rest2).map (fun t => a * t + b))
          (t0 :: t1 :: rest2) = (x - b) / a
        rw [npInterp_step x (a * t0 + b) t0 ((t1 :: rest2).map (fun t => a * t + b))
          (t1 :: rest2) (by simp) (by simp) hx1 (by simpa using hcase)]
        exact ih hch2 (by simp) x (by simpa using hcase) hx2

/-- Linear interpolation of a table whose entries are affine in the index is
the affine function itself, on the whole index range. -/
lemma interpAt_affine (table : List ℚ) (n : ℕ) (α β : ℚ)
    (htable : ∀ k, k < n → table.getD k 0 = α + β * k)
    (idx : ℚ) (h0 : 0 ≤ idx) (h1 : idx ≤ (n : ℚ) - 1) :
    interpAt table idx = α + β * idx := by
  have hknn : 0 ≤ Int.floor idx := Int.floor_nonneg.mpr h0
  obtain ⟨K, hK⟩ : ∃ K : ℕ, (Int.floor idx).toNat = K := ⟨_, rfl⟩
  have hKz : ((K : ℤ) : ℚ) ≤ idx := by
    rw [← hK, Int.toNat_of_nonneg hknn]
    exact Int.floor_le idx
  have hkidx : (K : ℚ) ≤ idx := by exact_mod_cast hKz
  have hKz2 : idx < ((K : ℤ) : ℚ) + 1 := by
    rw [← hK, Int.toNat_of_nonneg hknn]
    exact Int.lt_floor_add_one idx
  have hkidx2 : idx < (K : ℚ) + 1 := by exact_mod_cast hKz2
  have hkn : K < n := by
    have hq : (K : ℚ) < (n : ℚ) := by linarith
    exact_mod_cast hq
  rw [interpAt_bracket table idx K hkidx (le_of_lt hkidx2)]
  by_cases hedge : K + 1 < n
  · rw [htable _ hkn, htable _ hedge]
    push_cast
    ring
  · have hkeq : ((n : ℚ) - 1) = (K : ℚ) := by
      have hn1 : n = K + 1 := by omega
      rw [hn1]
      push_cast
      ring
    have hidxk : idx = (K : ℚ) := le_antisymm (hkeq ▸ h1) hkidx
    rw [htable _ hkn, hidxk]
    ring

end InterpHelpers

section SubCorrectorLinear

lemma getD_map_lt {α β : Type} (f : α → β) (l : List α) (k : ℕ) (hk : k < l.length)
    (d : β) (e : α) : (l.map f).getD k d = f (l.getD k e) := by
  rw [List.getD_eq_getElem _ _ (by rw [List.length_map]; exact hk), List.getElem_map,
    List.getD_eq_getElem _ _ hk]

lemma getLastD_mem {α : Type} (l : List α) (h : l ≠ []) (d : α) : l.getLastD d ∈ l := by
  rw [List.getLastD_eq_getLast?, List.getLast?_eq_getLast l h]
  exact List.getLast_mem h

/-- A SubCorrector on an empty pixel series has equal min and max. -/
lemma series_nil_minmax {P : ℕ} (S : SubCorrector P) (p : Fin P)
    (h : S.pixelSeries p = []) : S.maxVals p = S.minVals p := by
  unfold SubCorrector.maxVals SubCorrector.minVals
  rw [h]
  rfl

/-- Outside the pixel's `[min, max]` count window (or when that window is
degenerate) `SubCorrector.correct` yields the sentinel. -/
lemma sub_correct_sentinel_outside {P : ℕ} (S : SubCorrector P) (p : Fin P)
    (input : Fin P → ℚ) (hn : 2 ≤ S.numSamples)
    (h : input p < S.minVals p ∨ S.maxVals p < input p) :
    S.correct input p = -1 := by
  simp only [SubCorrector.correct]
  by_cases hmx : S.maxVals p = S.minVals p
  · rw [if_pos hmx]
  · rw [if_neg hmx, mapCoordinates1, if_neg]
    have hne : S.pixelSeries p ≠ [] := by
      intro h0
      apply hmx
      unfold SubCorrector.maxVals SubCorrector.minVals
      rw [h0]
      rfl
    have hle : S.minVals p ≤ S.maxVals p := listMin_le_listMax _ hne
    have hlt : S.minVals p < S.maxVals p := lt_of_le_of_ne hle (fun hh => hmx hh.symm)
    have hn1 : (0 : ℚ) < (S.numSamples : ℚ) - 1 := by
      have h2 : (2 : ℚ) ≤ (S.numSamples : ℚ) := by exact_mod_cast hn
      linarith
    rintro ⟨hc1, hc2⟩
    rcases h with hlo | hhi
    · have hneg : ((S.numSamples : ℚ) - 1) * (input p - S.minVals p) /
          (S.maxVals p - S.minVals p) < 0 := by
        apply div_neg_of_neg_of_pos
        · exact mul_neg_of_pos_of_neg hn1 (by linarith)
        · linarith
      linarith
    · have hgt : (S.numSamples : ℚ) - 1 <
          ((S.numSamples : ℚ) - 1) * (input p - S.minVals p) /
            (S.maxVals p - S.minVals p) := by
        rw [lt_div_iff₀ (by linarith : (0 : ℚ) < S.maxVals p - S.minVals p)]
        calc ((S.numSamples : ℚ) - 1) * (S.maxVals p - S.minVals p) <
            ((S.numSamples : ℚ) - 1) * (input p - S.minVals p) :=
              mul_lt_mul_of_pos_left (by linarith) hn1
        _ = ((S.numSamples : ℚ) - 1) * (input p - S.minVals p) := rfl
      linarith

/-- The workhorse: a SubCorrector whose per-pixel calibration series is
exactly `a·t + b` over its (strictly increasing, length ≥ 2) exposure times
has min/max equal to the counts at the first/last exposure, and inside that
count window `correct` inverts the line exactly. -/
lemma sub_correct_linear {P : ℕ} (S : SubCorrector P) (p : Fin P) (a b : ℚ)
    (ha : 0 < a)
    (hser : S.pixelSeries p = S.exposureTimes.map (fun t => a * t + b))
    (hts : List.Chain' (· < ·) S.exposureTimes)
    (hlen : 2 ≤ S.exposureTimes.length) (hsr : 1 ≤ S.sampleRate)
    (input : Fin P → ℚ) :
    S.minVals p = a * S.exposureTimes.headD 0 + b ∧
    S.maxVals p = a * S.exposureTimes.getLastD 0 + b ∧
    (S.minVals p ≤ input p → input p ≤ S.maxVals p →
      S.correct input p = (input p - b) / a) := by
  obtain ⟨t0, trest, hts0⟩ : ∃ t0 trest, S.exposureTimes = t0 :: trest := by
    cases hh : S.exposureTimes with
    | nil => rw [hh] at hlen; simp at hlen
    | cons u v => exact ⟨u, v, rfl⟩
  have htsne : S.exposureTimes ≠ [] := by rw [hts0]; simp
  have hchmap : List.Chain' (· < ·) (S.exposureTimes.map (fun t => a * t + b)) := by
    rw [List.chain'_map]
    exact hts.imp (fun u v huv => by
      have := mul_lt_mul_of_pos_left huv ha
      linarith)
  have hchle : List.Chain' (· ≤ ·) (S.exposureTimes.map (fun t => a * t + b)) :=
    hchmap.imp (fun u v huv => le_of_lt huv)
  have hch2 : List.Chain' (· ≤ ·) ((a * t0 + b) :: trest.map (fun t => a * t + b)) := by
    have h5 := hchle
    rw [hts0] at h5
    exact h5
  have hmin : S.minVals p = a * S.exposureTimes.headD 0 + b := by
    unfold SubCorrector.minVals
    rw [hser, hts0]
    have h6 : listMin (List.map (fun t => a * t + b) (t0 :: trest)) = a * t0 + b :=
      listMin_sorted (a * t0 + b) (trest.map (fun t => a * t + b)) hch2
    rw [h6]
    simp
  have hmax : S.maxVals p = a * S.exposureTimes.getLastD 0 + b := by
    unfold SubCorrector.maxVals
    rw [hser, hts0]
    have h7 : listMax (List.map (fun t => a * t + b) (t0 :: trest)) =
        ((a * t0 + b) :: trest.map (fun t => a * t + b)).getLastD 0 :=
      listMax_sorted (a * t0 + b) (trest.map (fun t => a * t + b)) hch2
    have h8 : ((a * t0 + b) :: trest.map (fun t => a * t + b)).getLastD 0 =
        a * ((t0 :: trest).getLastD 0) + b :=
      getLastD_map_of_ne_nil (fun t => a * t + b) (t0 :: trest) (by simp) 0 0
    rw [h7, h8]
  refine ⟨hmin, hmax, ?_⟩
  intro h1 h2
  -- strictness of the window
  have hheadlast : S.exposureTimes.headD 0 < S.exposureTimes.getLastD 0 := by
    obtain ⟨t1, trest2, hts1⟩ : ∃ t1 trest2, trest = t1 :: trest2 := by
      cases hh : trest with
      | nil => rw [hts0, hh] at hlen; simp at hlen
      | cons u v => exact ⟨u, v, rfl⟩
    have hpw : List.Pairwise (· < ·) S.exposureTimes := List.chain'_iff_pairwise.mp hts
    rw [hts0, hts1] at hpw ⊢
    have hhead : ∀ y ∈ t1 :: trest2, t0 < y := (List.pairwise_cons.mp hpw).1
    have hlmem : (t1 :: trest2).getLastD 0 ∈ t1 :: trest2 := getLastD_mem _ (by simp) 0
    simp only [List.headD_cons]
    rw [List.getLastD_cons, getLastD_congr (t1 :: trest2) (by simp) t0 0]
    exact hhead _ hlmem
  have hwin : S.minVals p < S.maxVals p := by
    rw [hmin, hmax]
    have := mul_lt_mul_of_pos_left hheadlast ha
    linarith
  have hne2 : S.maxVals p ≠ S.minVals p := ne_of_gt hwin
  -- sample count
  have hnum : 2 ≤ S.numSamples := by
    unfold SubCorrector.numSamples
    have hl2 : 2 ≤ S.imageData.length := by
      have : S.imageData.length = S.exposureTimes.length := by
        have h3 : (S.pixelSeries p).length = S.imageData.length := by
          unfold SubCorrector.pixelSeries
          rw [List.length_map]
        have h4 : (S.pixelSeries p).length = S.exposureTimes.length := by
          rw [hser, List.length_map]
        omega
      omega
    calc 2 = 2 * 1 := by norm_num
    _ ≤ S.imageData.length * S.sampleRate := Nat.mul_le_mul hl2 hsr
  have hn1 : (0 : ℚ) < (S.numSamples : ℚ) - 1 := by
    have h2c : (2 : ℚ) ≤ (S.numSamples : ℚ) := by exact_mod_cast hnum
    linarith
  -- the uniform virtual-exposure table is affine in the index
  have htable : ∀ k, k < S.numSamples → (S.uniformExposures p).getD k 0 =
      (S.minVals p - b) / a +
        (S.maxVals p - S.minVals p) / (((S.numSamples : ℚ) - 1) * a) * k := by
    intro k hk
    have hulen : k < (S.uniformData p).length := by
      unfold SubCorrector.uniformData
      rw [linspace_length]
      exact hk
    unfold SubCorrector.uniformExposures
    rw [getD_map_lt _ _ _ hulen 0 0]
    have humem : (S.uniformData p).getD k 0 ∈
        linspace (S.minVals p) (S.maxVals p) S.numSamples := by
      have hmem := List.getElem_mem hulen
      rw [← List.getD_eq_getElem _ _ hulen] at hmem
      exact hmem
    have hubd := linspace_mem_bounds _ _ _ (le_of_lt hwin) _ humem
    have huval : (S.uniformData p).getD k 0 = S.minVals p +
        (k : ℚ) * (S.maxVals p - S.minVals p) / ((S.numSamples : ℚ) - 1) :=
      linspace_getD (S.minVals p) (S.maxVals p) S.numSamples k hnum hk
    rw [hser]
    rw [npInterp_affine a b ha S.exposureTimes hts htsne _
      (by rw [← hmin]; exact hubd.1) (by rw [← hmax]; exact hubd.2)]
    rw [huval]
    field_simp
    ring
  -- evaluate correct
  simp only [SubCorrector.correct]
  rw [if_neg hne2, mapCoordinates1, if_pos]
  · rw [interpAt_affine (S.uniformExposures p) S.numSamples _ _ htable _
      (by
        apply div_nonneg
        · apply mul_nonneg (by linarith) (by linarith)
        · linarith)
      (by
        rw [div_le_iff₀ (by linarith : (0 : ℚ) < S.maxVals p - S.minVals p)]
        calc ((S.numSamples : ℚ) - 1) * (input p - S.minVals p) ≤
            ((S.numSamples : ℚ) - 1) * (S.maxVals p - S.minVals p) :=
              mul_le_mul_of_nonneg_left (by linarith) (by linarith)
        _ = ((S.numSamples : ℚ) - 1) * (S.maxVals p - S.minVals p) := rfl)]
    have hane : a ≠ 0 := ne_of_gt ha
    have hdne : S.maxVals p - S.minVals p ≠ 0 := sub_ne_zero_of_ne (ne_of_gt hwin)
    have hnne : (S.numSamples : ℚ) - 1 ≠ 0 := ne_of_gt hn1
    have hstep : (S.maxVals p - S.minVals p) / (((S.numSamples : ℚ) - 1) * a) *
        (((S.numSamples : ℚ) - 1) * (input p - S.minVals p) /
          (S.maxVals p - S.minVals p)) = (input p - S.minVals p) / a := by
      field_simp
      ring
    rw [hstep, div_add_div_same]
    congr 1
    ring
  · constructor
    · apply div_nonneg
      · apply mul_nonneg (by linarith) (by linarith)
      · linarith
    · rw [div_le_iff₀ (by linarith : (0 : ℚ) < S.maxVals p - S.minVals p)]
      calc ((S.numSamples : ℚ) - 1) * (input p - S.minVals p) ≤
          ((S.numSamples : ℚ) - 1) * (S.maxVals p - S.minVals p) :=
            mul_le_mul_of_nonneg_left (by linarith) (by linarith)
      _ = ((S.numSamples : ℚ) - 1) * (S.maxVals p - S.minVals p) := rfl

end SubCorrectorLinear

section SegmentStructure

lemma chain'_lt_range' (s m : ℕ) : List.Chain' (· < ·) (List.range' s m) := by
  rw [List.chain'_iff_pairwise, List.pairwise_iff_getElem]
  intro i j hi hj hij
  rw [List.getElem_range', List.getElem_range']
  omega

lemma range'_getD (s m k : ℕ) (hk : k < m) : (List.range' s m).getD k 0 = s + k := by
  have hk2 : k < (List.range' s m).length := by rw [List.length_range']; exact hk
  rw [List.getD_eq_getElem _ _ hk2, List.getElem_range']
  omega

lemma range'_headD (s m : ℕ) (hm : 1 ≤ m) : (List.range' s m).headD 0 = s := by
  obtain ⟨m2, rfl⟩ : ∃ m2, m = m2 + 1 := ⟨m - 1, by omega⟩
  rw [List.range'_succ]
  rfl

lemma range'_getLastD : ∀ (m s : ℕ), (List.range' s (m + 1)).getLastD 0 = s + m
  | 0, s => by simp [List.range'_succ]
  | m + 1, s => by
    rw [List.range'_succ, List.getLastD_cons,
      getLastD_congr _ (by simp [List.range'_succ]) s 0, range'_getLastD m (s + 1)]
    omega

/-- Structural facts about every segment of a specification segmentation:
nonempty, strictly increasing, and bounded by `n`. -/
lemma specSegs_segments {isGap : ℕ → Prop} {n : ℕ} :
    ∀ {s : ℕ} {L : List (List ℕ)}, SpecSegs isGap n s L → s < n →
      ∀ seg ∈ L, seg ≠ [] ∧ List.Chain' (· < ·) seg ∧ ∀ i ∈ seg, i < n := by
  intro s L h
  induction h with
  | last s hno =>
    intro hsn seg hseg
    rw [List.mem_singleton] at hseg
    subst hseg
    refine ⟨?_, chain'_lt_range' s (n - s), ?_⟩
    · intro hcon
      have := congrArg List.length hcon
      rw [List.length_range'] at this
      simp at this
      omega
    · intro i hi
      rw [List.mem_range'_1] at hi
      omega
  | step s g L hs hg hgap hnogap hrest ih =>
    intro hsn seg hseg
    rw [List.mem_cons, List.mem_cons] at hseg
    rcases hseg with rfl | rfl | hmem
    · refine ⟨?_, chain'_lt_range' s (g - s), ?_⟩
      · intro hcon
        have := congrArg List.length hcon
        rw [List.length_range'] at this
        simp at this
        omega
      · intro i hi
        rw [List.mem_range'_1] at hi
        omega
    · refine ⟨by simp, ?_, ?_⟩
      · rw [List.chain'_cons]
        exact ⟨by omega, List.chain'_singleton g⟩
      · intro i hi
        rw [List.mem_cons, List.mem_singleton] at hi
        rcases hi with rfl | rfl <;> omega
    · exact ih hg seg hmem

/-- The first segment of a specification segmentation starts at `s`. -/
lemma specSegs_head {isGap : ℕ → Prop} {n : ℕ} :
    ∀ {s : ℕ} {L : List (List ℕ)}, SpecSegs isGap n s L → s < n →
      ∃ seg rest2, L = seg :: rest2 ∧ seg.headD 0 = s := by
  intro s L h
  cases h with
  | last s hno =>
    intro hsn
    exact ⟨_, _, rfl, range'_headD s (n - s) (by omega)⟩
  | step s g L hs hg hgap hnogap hrest =>
    intro _
    exact ⟨_, _, rfl, range'_headD s (g - s) (by omega)⟩

/-- The last segment of a specification segmentation ends at `n − 1`. -/
lemma specSegs_last {isGap : ℕ → Prop} {n : ℕ} :
    ∀ {s : ℕ} {L : List (List ℕ)}, SpecSegs isGap n s L → s < n →
      ∃ pre seg, L = pre ++ [seg] ∧ seg.getLastD 0 = n - 1 := by
  intro s L h
  induction h with
  | last s hno =>
    intro hsn
    refine ⟨[], _, rfl, ?_⟩
    obtain ⟨m2, hm2⟩ : ∃ m2, n - s = m2 + 1 := ⟨n - s - 1, by omega⟩
    rw [hm2, range'_getLastD]
    omega
  | step s g L hs hg hgap hnogap hrest ih =>
    intro _
    obtain ⟨pre, seg, hL, hval⟩ := ih hg
    exact ⟨List.range' s (g - s) :: [g - 1, g] :: pre, seg, by rw [hL]; rfl, hval⟩

/-- Every adjacent index pair from `s` on appears at consecutive positions of
some segment of a specification segmentation. -/
lemma specSegs_pair {isGap : ℕ → Prop} {n : ℕ} :
    ∀ {s : ℕ} {L : List (List ℕ)}, SpecSegs isGap n s L →
      ∀ j, s ≤ j → j + 1 ≤ n - 1 →
        ∃ seg ∈ L, ∃ k, k + 1 < seg.length ∧
          seg.getD k 0 = j ∧ seg.getD (k + 1) 0 = j + 1 := by
  intro s L h
  induction h with
  | last s hno =>
    intro j hsj hjn
    have hn2 : 2 ≤ n := by omega
    refine ⟨List.range' s (n - s), List.mem_singleton_self _, j - s, ?_, ?_, ?_⟩
    · rw [List.length_range']
      omega
    · rw [range'_getD s (n - s) (j - s) (by omega)]
      omega
    · rw [show j - s + 1 = (j + 1) - s by omega, range'_getD s (n - s) ((j + 1) - s) (by omega)]
      omega
  | step s g L hs hg hgap hnogap hrest ih =>
    intro j hsj hjn
    rcases Nat.lt_trichotomy (j + 1) g with hlt | heq | hgt
    · refine ⟨List.range' s (g - s), List.mem_cons_self _ _, j - s, ?_, ?_, ?_⟩
      · rw [List.length_range']
        omega
      · rw [range'_getD s (g - s) (j - s) (by omega)]
        omega
      · rw [show j - s + 1 = (j + 1) - s by omega,
          range'_getD s (g - s) ((j + 1) - s) (by omega)]
        omega
    · refine ⟨[g - 1, g], List.mem_cons_of_mem _ (List.mem_cons_self _ _), 0, ?_, ?_, ?_⟩
      · simp
      · simp
        omega
      · simp
        omega
    · obtain ⟨seg, hmem, k, hk, hv1, hv2⟩ := ih j (by omega) hjn
      exact ⟨seg, List.mem_cons_of_mem _ (List.mem_cons_of_mem _ hmem), k, hk, hv1, hv2⟩

lemma getD_zero_eq_headD {α : Type} (l : List α) (d : α) : l.getD 0 d = l.headD d := by
  cases l <;> rfl

/-- Mapping a function that is strictly monotone on the members of a strictly
increasing list preserves strict increase. -/
lemma chain'_map_of_mem {f : ℕ → ℚ} :
    ∀ (l : List ℕ), List.Chain' (· < ·) l →
      (∀ i ∈ l, ∀ j ∈ l, i < j → f i < f j) → List.Chain' (· < ·) (l.map f)
  | [], _, _ => List.chain'_nil
  | [_], _, _ => List.chain'_singleton _
  | i :: j :: rest, hch, hmono => by
    rw [List.map_cons, List.map_cons, List.chain'_cons]
    constructor
    · exact hmono i (by simp) j (by simp) (List.chain'_cons.mp hch).1
    · rw [← List.map_cons]
      exact chain'_map_of_mem (j :: rest) (List.chain'_cons.mp hch).2
        (fun u hu v hv huv =>
          hmono u (List.mem_cons_of_mem i hu) v (List.mem_cons_of_mem i hv) huv)

/-- The early exit of the merge loop: if every SubCorrector in a prefix of
the list outputs, at every pixel, either the sentinel or that pixel's target
value `w q ≠ −1`, and by the end of the prefix every pixel has been supplied
its target, then `numpy.all(result != -1)` fires within the prefix and the
merge returns exactly the target grid — the SubCorrectors after the prefix
are never applied, whatever they would return. -/
lemma mergeFrom_break {P : ℕ} (input w : Fin P → ℚ) (hw : ∀ q, w q ≠ -1) :
    ∀ (l1 l2 : List (SubCorrector P)) (r : Fin P → ℚ),
      l1 ≠ [] →
      (∀ c ∈ l1, ∀ q, c.correct input q = -1 ∨ c.correct input q = w q) →
      (∀ q, r q = -1 ∨ r q = w q) →
      (∀ q, r q = w q ∨ ∃ c ∈ l1, c.correct input q = w q) →
      mergeFrom input r (l1 ++ l2) = w := by
  intro l1
  induction l1 with
  | nil =>
    intro l2 r hne _ _ _
    exact absurd rfl hne
  | cons c cs ih =>
    intro l2 r _ hharm hinv hcov
    have hcw : ∀ q, c.correct input q = -1 ∨ c.correct input q = w q :=
      hharm c (List.mem_cons_self c cs)
    have hinv2 : ∀ q, overwrite r (c.correct input) q = -1 ∨
        overwrite r (c.correct input) q = w q := by
      intro q
      simp only [overwrite]
      rcases hcw q with h | h
      · rw [h, if_pos rfl]
        exact hinv q
      · rw [h, if_neg (hw q)]
        exact Or.inr rfl
    have hkeep : ∀ q, r q = w q → overwrite r (c.correct input) q = w q := by
      intro q hrq
      simp only [overwrite]
      rcases hcw q with h | h
      · rw [h, if_pos rfl]
        exact hrq
      · rw [h, if_neg (hw q)]
    have hwrite : ∀ q, c.correct input q = w q →
        overwrite r (c.correct input) q = w q := by
      intro q h
      simp only [overwrite]
      rw [h, if_neg (hw q)]
    rw [List.cons_append]
    by_cases hall : ∀ q, overwrite r (c.correct input) q ≠ -1
    · simp only [mergeFrom, if_pos hall]
      funext q
      rcases hinv2 q with h | h
      · exact absurd h (hall q)
      · exact h
    · simp only [mergeFrom, if_neg hall]
      cases cs with
      | nil =>
        exfalso
        apply hall
        intro q
        rcases hcov q with hrw | ⟨c2, hc2, hcw2⟩
        · rw [hkeep q hrw]
          exact hw q
        · rw [List.mem_singleton] at hc2
          subst hc2
          rw [hwrite q hcw2]
          exact hw q
      | cons c2 cs2 =>
        apply ih l2 (overwrite r (c.correct input)) (by simp)
          (fun d hd q => hharm d (List.mem_cons_of_mem c hd) q)
          hinv2
        intro q
        rcases hcov q with hrw | ⟨d, hd, hdw⟩
        · exact Or.inl (hkeep q hrw)
        · rw [List.mem_cons] at hd
          rcases hd with rfl | hd
          · exact Or.inl (hwrite q hdw)
          · exact Or.inr ⟨d, hd, hdw⟩

/-- Between the first and last calibrated count there is always a bracketing
pair of consecutive exposure times. -/
lemma exists_bracket (a b : ℚ) :
    ∀ (ts : List ℚ), 2 ≤ ts.length → List.Chain' (· < ·) ts → ∀ v : ℚ,
      a * ts.headD 0 + b ≤ v → v ≤ a * ts.getLastD 0 + b →
      ∃ j, j + 1 < ts.length ∧ a * ts.getD j 0 + b ≤ v ∧ v ≤ a * ts.getD (j + 1) 0 + b
  | [], hlen, _, _, _, _ => by simp at hlen
  | [_], hlen, _, _, _, _ => by simp at hlen
  | t0 :: t1 :: rest, _, hch, v, h1, h2 => by
    by_cases hc : v ≤ a * t1 + b
    · refine ⟨0, by simp, by simpa using h1, by simpa using hc⟩
    · push_neg at hc
      cases rest with
      | nil =>
        exfalso
        have hgl : (([t0, t1] : List ℚ)).getLastD 0 = t1 := rfl
        rw [hgl] at h2
        linarith
      | cons r0 rest2 =>
        have hch2 : List.Chain' (· < ·) (t1 :: r0 :: rest2) := (List.chain'_cons.mp hch).2
        have hlast : (t0 :: t1 :: r0 :: rest2).getLastD 0 =
            (t1 :: r0 :: rest2).getLastD 0 := by
          rw [List.getLastD_cons]
          exact getLastD_congr _ (by simp) t0 0
        rw [hlast] at h2
        obtain ⟨j, hj, hv1, hv2⟩ := exists_bracket a b (t1 :: r0 :: rest2)
          (by simp) hch2 v (by simpa using le_of_lt hc) h2
        refine ⟨j + 1, ?_, ?_, ?_⟩
        · simp only [List.length_cons] at hj ⊢
          omega
        · rw [List.getD_cons_succ]
          exact hv1
        · rw [List.getD_cons_succ]
          exact hv2

end SegmentStructure

section BuildLinear

/-- Under exactly linear calibration data, the per-pixel series of a primary
SubCorrector is the affine image of its exposure times. -/
lemma subOf_series {P : ℕ} (times : List ℚ) (data : List (Fin P → ℚ)) (a b : ℚ)
    (hlin : ∀ i, i < times.length → ∀ p : Fin P,
      (data.getD i (zeroFrame P)) p = a * times.getD i 0 + b)
    (seg : List ℕ) (hbound : ∀ i ∈ seg, i < times.length) (rate : ℕ) (p : Fin P) :
    (subOf times data seg rate : SubCorrector P).pixelSeries p =
      (subOf times data seg rate : SubCorrector P).exposureTimes.map
        (fun t => a * t + b) := by
  show (seg.map (fun i => data.getD i (zeroFrame P))).map (fun f => f p) =
    (seg.map (fun i => times.getD i 0)).map (fun t => a * t + b)
  rw [List.map_map, List.map_map]
  apply List.map_congr_left
  intro i hi
  show data.getD i (zeroFrame P) p = a * times.getD i 0 + b
  exact hlin i (hbound i hi) p

/-- The exposure times of a primary SubCorrector built from a strictly
increasing in-range segment are strictly increasing. -/
lemma subOf_chain {P : ℕ} (times : List ℚ) (data : List (Fin P → ℚ))
    (hts : List.Chain' (· < ·) times)
    (seg : List ℕ) (hchseg : List.Chain' (· < ·) seg)
    (hbound : ∀ i ∈ seg, i < times.length) (rate : ℕ) :
    List.Chain' (· < ·) (subOf times data seg rate : SubCorrector P).exposureTimes := by
  show List.Chain' (· < ·) (seg.map (fun i => times.getD i 0))
  apply chain'_map_of_mem seg hchseg
  intro i hi j hj hij
  rw [List.getD_eq_getElem _ _ (hbound i hi), List.getD_eq_getElem _ _ (hbound j hj)]
  exact List.pairwise_iff_getElem.mp (List.chain'_iff_pairwise.mp hts) i j _ _ hij

/-- A primary SubCorrector on exactly linear calibration data either returns
the sentinel at a pixel or inverts the global line there. -/
lemma subOf_harmless {P : ℕ} (times : List ℚ) (data : List (Fin P → ℚ)) (a b : ℚ)
    (ha : 0 < a) (hts : List.Chain' (· < ·) times)
    (hlin : ∀ i, i < times.length → ∀ p : Fin P,
      (data.getD i (zeroFrame P)) p = a * times.getD i 0 + b)
    (seg : List ℕ) (hneseg : seg ≠ []) (hchseg : List.Chain' (· < ·) seg)
    (hbound : ∀ i ∈ seg, i < times.length)
    (rate : ℕ) (hrate : 1 ≤ rate) (input : Fin P → ℚ) (p : Fin P) :
    (subOf times data seg rate : SubCorrector P).correct input p = -1 ∨
    (subOf times data seg rate : SubCorrector P).correct input p = (input p - b) / a := by
  have hser := subOf_series times data a b hlin seg hbound rate p
  have hch := subOf_chain times data hts seg hchseg hbound rate
  have hlents : (subOf times data seg rate : SubCorrector P).exposureTimes.length =
      seg.length := by
    show (seg.map _).length = _
    rw [List.length_map]
  have hrate2 : 1 ≤ (subOf times data seg rate : SubCorrector P).sampleRate := hrate
  rcases Nat.lt_or_ge seg.length 2 with hlt2 | hge2
  · obtain ⟨i0, rfl⟩ : ∃ i0, seg = [i0] := by
      cases seg with
      | nil => exact absurd rfl hneseg
      | cons i0 rest =>
        cases rest with
        | nil => exact ⟨i0, rfl⟩
        | cons j r =>
          simp only [List.length_cons] at hlt2
          omega
    left
    have hmm : (subOf times data [i0] rate : SubCorrector P).maxVals p =
        (subOf times data [i0] rate : SubCorrector P).minVals p := by
      have hser1 : (subOf times data [i0] rate : SubCorrector P).pixelSeries p =
          [data.getD i0 (zeroFrame P) p] := rfl
      unfold SubCorrector.maxVals SubCorrector.minVals
      rw [hser1]
      rfl
    simp only [SubCorrector.correct]
    rw [if_pos hmm]
  · by_cases hwin : (subOf times data seg rate : SubCorrector P).minVals p ≤ input p ∧
      input p ≤ (subOf times data seg rate : SubCorrector P).maxVals p
    · right
      exact (sub_correct_linear _ p a b ha hser hch (by omega) hrate2 input).2.2
        hwin.1 hwin.2
    · left
      apply sub_correct_sentinel_outside _ p input
      · have hns : (subOf times data seg rate : SubCorrector P).numSamples =
            seg.length * rate := by
          show (seg.map (fun i => data.getD i (zeroFrame P))).length * rate = _
          rw [List.length_map]
        rw [hns]
        calc 2 = 2 * 1 := by norm_num
        _ ≤ seg.length * rate := Nat.mul_le_mul hge2 hrate
      · push_neg at hwin
        by_cases h5 : (subOf times data seg rate : SubCorrector P).minVals p ≤ input p
        · exact Or.inr (hwin h5)
        · exact Or.inl (not_le.mp h5)

/-- A primary SubCorrector whose segment holds a bracketing pair of exposure
indices for the input value inverts the global line at that pixel. -/
lemma subOf_covers {P : ℕ} (times : List ℚ) (data : List (Fin P → ℚ)) (a b : ℚ)
    (ha : 0 < a) (hts : List.Chain' (· < ·) times)
    (hlin : ∀ i, i < times.length → ∀ p : Fin P,
      (data.getD i (zeroFrame P)) p = a * times.getD i 0 + b)
    (seg : List ℕ) (hchseg : List.Chain' (· < ·) seg)
    (hbound : ∀ i ∈ seg, i < times.length)
    (rate : ℕ) (hrate : 1 ≤ rate) (input : Fin P → ℚ) (p : Fin P) (k : ℕ)
    (hk : k + 1 < seg.length)
    (hv1 : a * times.getD (seg.getD k 0) 0 + b ≤ input p)
    (hv2 : input p ≤ a * times.getD (seg.getD (k + 1) 0) 0 + b) :
    (subOf times data seg rate : SubCorrector P).correct input p =
      (input p - b) / a := by
  have hser := subOf_series times data a b hlin seg hbound rate p
  have hch := subOf_chain times data hts seg hchseg hbound rate
  have hlents : (subOf times data seg rate : SubCorrector P).exposureTimes.length =
      seg.length := by
    show (seg.map _).length = _
    rw [List.length_map]
  have hserlen : ((subOf times data seg rate : SubCorrector P).pixelSeries p).length =
      seg.length := by
    show ((seg.map (fun i => data.getD i (zeroFrame P))).map (fun f => f p)).length = _
    rw [List.length_map, List.length_map]
  have hgetser : ∀ m, m < seg.length →
      ((subOf times data seg rate : SubCorrector P).pixelSeries p).getD m 0 =
        a * times.getD (seg.getD m 0) 0 + b := by
    intro m hm
    rw [hser]
    rw [getD_map_lt _ _ _ (by omega) 0 0]
    show a * ((seg.map (fun i => times.getD i 0)).getD m 0) + b = _
    rw [getD_map_lt _ _ _ hm 0 0]
  have hmem : ∀ m, m < seg.length →
      ((subOf times data seg rate : SubCorrector P).pixelSeries p).getD m 0 ∈
        (subOf times data seg rate : SubCorrector P).pixelSeries p := by
    intro m hm
    have hm2 : m < ((subOf times data seg rate : SubCorrector P).pixelSeries p).length := by
      omega
    have := List.getElem_mem hm2
    rw [← List.getD_eq_getElem _ _ hm2] at this
    exact this
  have hmin_le : (subOf times data seg rate : SubCorrector P).minVals p ≤ input p := by
    apply le_trans _ hv1
    rw [← hgetser k (by omega)]
    exact listMin_le_mem _ _ (hmem k (by omega))
  have hmax_ge : input p ≤ (subOf times data seg rate : SubCorrector P).maxVals p := by
    apply le_trans hv2
    rw [← hgetser (k + 1) hk]
    exact mem_le_listMax _ _ (hmem (k + 1) hk)
  exact (sub_correct_linear _ p a b ha hser hch (by omega) hrate input).2.2
    hmin_le hmax_ge

end BuildLinear

/-- Exposure times whose per-pixel counts decrease with exposure (negative
gain): counts `−1, −2` at times `1, 2`. -/
def timesNeg : List ℚ := [1, 2]

/-- Frames for `timesNeg`: exactly `count = −1·exposure + 0` at the single
pixel. -/
def framesNeg : List (Fin 1 → ℚ) := [fun _ => -1, fun _ => -2]

/-- Claim C8 (amended): round-trip on exactly linear calibration with
POSITIVE gain: if every pixel of the calibration frames satisfies
`count = a·exposure + b` exactly with the same `a > 0` and `b` for all
pixels, and the exposure times are strictly increasing and nonnegative, then
for every input grid whose values lie within the calibrated count range,
`Corrector.correct` returns the input unchanged (exactly, in rational
arithmetic).  The primary cluster and gap-bridge SubCorrectors alone supply
every in-range pixel's inverse, so the merge loop's early exit fires before
the two boundary-extrapolation bridges are ever applied. -/
theorem c8_exact_linear_roundtrip {P : ℕ} (times : List ℚ) (data : List (Fin P → ℚ))
    (a b : ℚ) (ha : 0 < a)
    (hts : List.Chain' (· < ·) times) (hlen : 2 ≤ times.length)
    (ht0 : 0 ≤ times.headD 0)
    (hdata : data.length = times.length)
    (hlin : ∀ i, i < times.length → ∀ p : Fin P,
      (data.getD i (zeroFrame P)) p = a * times.getD i 0 + b)
    (input : Fin P → ℚ)
    (hin : ∀ p, a * times.headD 0 + b ≤ input p ∧ input p ≤ a * times.getLastD 0 + b) :
    (Corrector.build times data).correct input = input := by
  rcases Nat.eq_zero_or_pos P with hP0 | hP0
  · subst hP0
    funext p
    exact p.elim0
  have htne : times ≠ [] := by
    intro hcon
    rw [hcon] at hlen
    simp at hlen
  have hPq : (P : ℚ) ≠ 0 := Nat.cast_ne_zero.mpr (by omega)
  -- the global fit recovers the line exactly
  have hmeans : data.map frameMean = times.map (fun t => a * t + b) := by
    apply List.ext_getElem
    · rw [List.length_map, List.length_map, hdata]
    · intro i h1 h2
      have hi : i < times.length := by
        rw [List.length_map] at h2
        exact h2
      have hdi : i < data.length := by omega
      rw [List.getElem_map, List.getElem_map]
      show frameMean data[i] = a * times[i] + b
      have hconst : ∀ q : Fin P, data[i] q = a * times[i] + b := by
        intro q
        have hid : data[i] = data.getD i (zeroFrame P) :=
          (List.getD_eq_getElem _ _ (by omega : i < data.length)).symm
        rw [hid, hlin i hi q, List.getD_eq_getElem _ _ hi]
      unfold frameMean
      rw [Finset.sum_congr rfl (fun q _ => hconst q), Finset.sum_const,
        Finset.card_univ, Fintype.card_fin, nsmul_eq_mul]
      field_simp
  have hdet : lsqDet times ≠ 0 := by
    obtain ⟨t0, t1, tr, htimes⟩ : ∃ t0 t1 tr, times = t0 :: t1 :: tr := by
      cases times with
      | nil => simp at hlen
      | cons t0 rest =>
        cases rest with
        | nil =>
          simp only [List.length_cons, List.length_nil] at hlen
          omega
        | cons t1 tr => exact ⟨t0, t1, tr, rfl⟩
    rw [htimes]
    apply ne_of_gt
    apply lsqDet_pos
    rw [htimes] at hts
    exact ne_of_lt (List.chain'_cons.mp hts).1
  have hfit : polyfit1 times (data.map frameMean) = (a, b) := by
    rw [hmeans]
    exact polyfit1_linear a b times hdet
  have hba : (Corrector.build times data).slope = a := by
    show (polyfit1 times (data.map frameMean)).1 = a
    rw [hfit]
  have hbb : (Corrector.build times data).intercept = b := by
    show (polyfit1 times (data.map frameMean)).2 = b
    rw [hfit]
  -- segmentation structure
  have hsn : 0 < times.length := List.length_pos.mpr htne
  have hspec := gapSegments_spec times (npMedian (diffs times)) htne
  have segprops := specSegs_segments hspec hsn
  obtain ⟨seg0, rest0, hsegs0, hhead0⟩ := specSegs_head hspec hsn
  have hsubs : (Corrector.build times data).subCorrectors =
      (gapSegments times (npMedian (diffs times))).map
        (fun seg => subOf times data seg 2) ++
      [extCorrector true a b
          (((gapSegments times (npMedian (diffs times))).map
            (fun seg => subOf times data seg 2)).headD (noSub P)),
        extCorrector false a b
          (((gapSegments times (npMedian (diffs times))).map
            (fun seg => subOf times data seg 2)).getLastD (noSub P))] := by
    show (gapSegments times (npMedian (diffs times))).map
        (fun seg => subOf times data seg 2) ++
      [extCorrector true (polyfit1 times (data.map frameMean)).1
          (polyfit1 times (data.map frameMean)).2 _,
        extCorrector false (polyfit1 times (data.map frameMean)).1
          (polyfit1 times (data.map frameMean)).2 _] = _
    rw [hfit]
    rfl
  -- the target grid is sentinel-free
  have hwne : ∀ q : Fin P, (input q - b) / a ≠ -1 := by
    intro q
    have hw0 : times.headD 0 ≤ (input q - b) / a := by
      rw [le_div_iff₀ ha]
      have := (hin q).1
      linarith
    intro hcon
    rw [hcon] at hw0
    linarith
  -- every primary SubCorrector is harmless at every pixel
  have harmless : ∀ c ∈ (gapSegments times (npMedian (diffs times))).map
      (fun seg => subOf times data seg 2), ∀ q : Fin P,
      c.correct input q = -1 ∨ c.correct input q = (input q - b) / a := by
    intro c hc q
    rcases List.mem_map.mp hc with ⟨seg, hsegmem, rfl⟩
    obtain ⟨hne, hch, hb⟩ := segprops seg hsegmem
    exact subOf_harmless times data a b ha hts hlin seg hne hch hb 2
      (by norm_num) input q
  -- some primary SubCorrector covers every pixel's value
  have exC : ∀ q : Fin P, ∃ c ∈ (gapSegments times (npMedian (diffs times))).map
      (fun seg => subOf times data seg 2),
      c.correct input q = (input q - b) / a := by
    intro q
    obtain ⟨j, hj, hv1, hv2⟩ := exists_bracket a b times hlen hts (input q)
      (hin q).1 (hin q).2
    obtain ⟨seg, hsegmem, k, hk, hgk, hgk1⟩ := specSegs_pair hspec j
      (Nat.zero_le j) (by omega)
    obtain ⟨hne, hch, hb⟩ := segprops seg hsegmem
    exact ⟨subOf times data seg 2, List.mem_map_of_mem _ hsegmem,
      subOf_covers times data a b ha hts hlin seg hch hb 2 (by norm_num)
        input q k hk (by rw [hgk]; exact hv1) (by rw [hgk1]; exact hv2)⟩
  have hprimne : (gapSegments times (npMedian (diffs times))).map
      (fun seg => subOf times data seg 2) ≠ [] := by
    rw [hsegs0]
    simp
  -- the early exit fires within the primaries; the bridges are never applied
  have hmerged : (Corrector.build times data).mergedPre input =
      fun q => (input q - b) / a := by
    show mergeFrom input (fun _ => -1)
      (Corrector.build times data).subCorrectors = _
    rw [hsubs]
    exact mergeFrom_break input (fun q => (input q - b) / a) hwne _ _ _
      hprimne harmless (fun q => Or.inl rfl) (fun q => Or.inr (exC q))
  funext p
  show (Corrector.build times data).preRescale input p *
    (Corrector.build times data).slope + (Corrector.build times data).intercept = input p
  unfold Corrector.preRescale
  simp only [hmerged]
  rw [if_neg (hwne p), hba, hbb, div_mul_cancel₀ _ (ne_of_gt ha)]
  ring

/-- Claim C8 (witness): the round-trip theorem instantiated on the minimal
calibration (gain 2, offset 0) at the in-range input 1. -/
theorem c8_exact_linear_roundtrip_witness :
    (Corrector.build timesTiny framesTiny).correct (fun _ => 1) =
      (fun _ : Fin 1 => (1 : ℚ)) :=
  c8_exact_linear_roundtrip timesTiny framesTiny 2 0 (by norm_num)
    (by norm_num [timesTiny, List.chain'_cons]) (by with_unfolding_all decide)
    (by with_unfolding_all decide)
    (by with_unfolding_all decide)
    (by
      intro i hi p
      have hi2 : i < 2 := by simpa [timesTiny] using hi
      interval_cases i
      · with_unfolding_all rfl
      · with_unfolding_all rfl)
    (fun _ => 1)
    (by with_unfolding_all decide)

/-- Claim C8 (counterexample): with negative gain `a = −1` (allowed by the
claim's `a ≠ 0`) the round trip fails: calibration counts `−1, −2` at times
`1, 2` satisfy `count = −1·exposure + 0` exactly, the input −2 is the
calibrated count at the largest exposure (inside the calibrated range), yet
`correct(−2)` returns −1, not −2 — `numpy.interp` assumes ascending
abscissas, and with a decreasing response the lookup table degenerates. -/
theorem c8_negative_slope_roundtrip_false :
    (framesNeg.map (fun f => f 0)) = timesNeg.map (fun t => -1 * t + 0) ∧
    ((-1 : ℚ) ≠ 0) ∧
    (-1 * timesNeg.getLastD 0 + 0 = (-2 : ℚ)) ∧
    (Corrector.build timesNeg framesNeg).correct (fun _ => -2) 0 = -1 ∧
    ((-1 : ℚ) ≠ -2) := by
  refine ⟨?_, ?_, ?_, ?_, ?_⟩
  · with_unfolding_all rfl
  · with_unfolding_all decide
  · with_unfolding_all rfl
  · with_unfolding_all rfl
  · with_unfolding_all decide

/-- Claim C10: a pixel on which every SubCorrector yields −1 — whether as a
genuine interpolated virtual exposure or as the sentinel — is never committed
by the merge loop (the merge value stays −1) and is replaced by the raw input
value; and every non-sentinel merge value is the (non-sentinel) output of one
of the SubCorrectors, so a mapped, non-fallback result can never carry the
pre-rescale value −1. -/
theorem c10_sentinel_minus_one_uncommittable {P : ℕ} (C : Corrector P)
    (input : Fin P → ℚ) (p : Fin P)
    (h : ∀ c ∈ C.subCorrectors, c.correct input p = -1) :
    C.mergedPre input p = -1 ∧ C.preRescale input p = input p ∧
    ∀ q, C.mergedPre input q ≠ -1 →
      ∃ c ∈ C.subCorrectors, C.mergedPre input q = c.correct input q ∧
        c.correct input q ≠ -1 := by
  have hm : C.mergedPre input p = -1 :=
    mergeFrom_all_sentinel input C.subCorrectors p h (fun _ => -1)
  refine ⟨hm, by simp [Corrector.preRescale, hm], ?_⟩
  intro q hq
  rcases mergeFrom_provenance input C.subCorrectors (fun _ => -1) q with h0 | hex
  · exact absurd h0 hq
  · exact hex

/-- Claim C10 (witness): instantiated on the minimal calibration at the
uncorrectable input 200000. -/
theorem c10_sentinel_minus_one_uncommittable_witness :
    corrTiny.mergedPre (fun _ => 200000) 0 = -1 ∧
    corrTiny.preRescale (fun _ => 200000) 0 = (fun _ : Fin 1 => (200000 : ℚ)) 0 ∧
    ∀ q, corrTiny.mergedPre (fun _ => 200000) q ≠ -1 →
      ∃ c ∈ corrTiny.subCorrectors,
        corrTiny.mergedPre (fun _ => 200000) q = c.correct (fun _ => 200000) q ∧
        c.correct (fun _ => 200000) q ≠ -1 :=
  c10_sentinel_minus_one_uncommittable corrTiny (fun _ => 200000) 0
    (by with_unfolding_all decide)

end CorrectNonlinear
